import Mathlib

/-!
Shallow embedding of the r2dasm disassembler (src/insn.py, src/r2dasm.py,
src/filebuffer.py).  Python integers are modelled as Nat (instruction words,
masks) or Int (decoded operand values, which may be negative).  Python
assertions and struct.error are modelled with Option / Except.  Strings are
modelled as Lean String / List Char.
-/

/-- INSN_LENGTH_IDX from src/insn.py: instruction byte length indexed by the
top three bits of the first byte. -/
def INSN_LENGTH_IDX : List Nat := [3, 3, 3, 3, 2, 4, 4, 4]

/-- VALID_ARGS from src/insn.py: the closed alphabet of operand letters. -/
def VALID_ARGS : List Char := ['a', 'b', 'd', 'i', 'j', 'k', 'n', 'x', 'y']

/-- BitRange from src/insn.py: a contiguous run of bits of one operand. -/
structure BitRange where
  length : Nat
  insn_offset : Nat
  value_offset : Nat
deriving DecidableEq

/-- BitRange.extract_part from src/insn.py:
`((instruction >> insn_offset) & ((1 << length) - 1)) << value_offset`. -/
def BitRange.extract_part (r : BitRange) (instruction : Nat) : Nat :=
  ((instruction >>> r.insn_offset) &&& ((1 <<< r.length) - 1)) <<< r.value_offset

/-- One step of the run-discovery loop of R2OperandTemplate.__init__, acting on
one template character at bit position pos (counted from the instruction LSB).
The Python loop walks the normalized template from its least significant end
with str.rfind, emitting one BitRange per maximal run of the operand letter;
here the same runs are built one bit at a time: a bit adjacent to the head
range extends it, any other operand bit opens a new range whose value_offset
continues where the head range stopped.  The accumulator holds the ranges most
significant first. -/
def pushBit (arg ch : Char) (pos : Nat) : List BitRange → List BitRange
  | [] => if ch = arg then [⟨1, pos, 0⟩] else []
  | r :: tail =>
    if ch = arg then
      if r.insn_offset + r.length = pos then
        { r with length := r.length + 1 } :: tail
      else
        ⟨1, pos, r.value_offset + r.length⟩ :: r :: tail
    else r :: tail

/-- The run-discovery loop of R2OperandTemplate.__init__ over the remaining
template bits (least significant first), starting at bit position pos. -/
def scanRangesAux (arg : Char) : List Char → Nat → List BitRange → List BitRange
  | [], _, acc => acc
  | ch :: rest, pos, acc => scanRangesAux arg rest (pos + 1) (pushBit arg ch pos acc)

/-- R2OperandTemplate from src/insn.py. -/
structure R2OperandTemplate where
  arg : Char
  template : List Char
  mask : Nat
  signed : Bool
  bit_length : Nat
  ranges : List BitRange
deriving DecidableEq

/-- Python int(s, 2) on a string of 0 and 1 characters (big endian). -/
def bitsToNat (l : List Char) : Nat :=
  l.foldl (fun acc ch => 2 * acc + (if ch = '1' then 1 else 0)) 0

/-- The body of R2OperandTemplate.__init__ from src/insn.py (after its
assertions): normalizes the template, derives mask, bit_length and the bit
ranges.  The ranges list is reversed so that it is ordered exactly as the
Python list: least significant run first. -/
def R2OperandTemplate.build (arg : Char) (template : String) (signed : Bool) :
    R2OperandTemplate :=
  let template_lower : List Char := template.toList.map Char.toLower
  let norm : List Char := template_lower.map (fun ch => if ch = arg then arg else '-')
  { arg := arg
    template := norm
    mask := bitsToNat (norm.map (fun ch => if ch = arg then '1' else '0'))
    signed := signed
    bit_length := template.toList.count arg
    ranges := (scanRangesAux arg norm.reverse 0 []).reverse }

/-- R2OperandTemplate.__init__ from src/insn.py with its assertions:
`assert arg in VALID_ARGS` and `assert arg in template_lower`. -/
def R2OperandTemplate.make (arg : Char) (template : String) (signed : Bool) :
    Option R2OperandTemplate :=
  if arg ∈ VALID_ARGS then
    if arg ∈ template.toList.map Char.toLower then
      some (R2OperandTemplate.build arg template signed)
    else none
  else none

/-- The accumulator of R2OperandTemplate.extract from src/insn.py: the
OR-fold of the repositioned bit range parts. -/
def R2OperandTemplate.rawValue (t : R2OperandTemplate) (instruction : Nat) : Nat :=
  t.ranges.foldl (fun value r => value ||| r.extract_part instruction) 0

/-- R2OperandTemplate.extract from src/insn.py (the value of the returned
R2Operand).  The `assert self.bit_length > 0` precondition holds for every
template the program constructs (the operand letter occurs in the template);
the computed value does not depend on it. -/
def R2OperandTemplate.extract (t : R2OperandTemplate) (instruction : Nat) : Int :=
  let value := t.rawValue instruction
  if t.signed then
    let sign_bit : Nat := 1 <<< (t.bit_length - 1)
    if (value &&& sign_bit) ≠ 0 then
      let mask : Nat := (1 <<< t.bit_length) - 1
      (-(((value ^^^ mask) + 1 : Nat) : Int))
    else (value : Int)
  else (value : Int)

/-- R2InsnTemplate from src/insn.py. -/
structure R2InsnTemplate where
  mnemonic : String
  length : Nat
  length_bits : Nat
  bits : Nat
  mask : Nat
  bits_template : List Char
  args : List Char
  opr_templates : List (Char × R2OperandTemplate)
  args_format : String
  signed_args : List Char
deriving DecidableEq

/-- The set of template characters minus 0 and 1 from R2InsnTemplate.__init__: the
distinct operand letters of a (lowercased) template, in order of first
occurrence. -/
def templateArgs (bits_template : List Char) : List Char :=
  (bits_template.filter (fun ch => !(ch == '0' || ch == '1'))).dedup

/-- The body of R2InsnTemplate.__init__ from src/insn.py (after its
assertions).  `args_format = none` models the Python default `None` (mapped to
the empty format); `signed` models the `signed` keyword set (`[]` for None). -/
def R2InsnTemplate.build (mnemonic : String) (length : Nat) (bits_template : String)
    (args_format : Option String) (signed : List Char) : R2InsnTemplate :=
  let bt : List Char := bits_template.toList.map Char.toLower
  let args : List Char := templateArgs bt
  { mnemonic := mnemonic
    length := length
    length_bits := length * 8
    bits_template := bt
    args := args
    args_format := args_format.getD ""
    signed_args := signed
    opr_templates :=
      args.map (fun a => (a, R2OperandTemplate.build a (String.mk bt) (a ∈ signed)))
    bits := bitsToNat (bt.map (fun ch => if ch = '0' ∨ ch = '1' then ch else '0'))
    mask := bitsToNat (bt.map (fun ch => if ch = '0' ∨ ch = '1' then '1' else '0')) }

/-- R2InsnTemplate.__init__ from src/insn.py with its assertions, in source
order: non-empty mnemonic, positive length, non-empty template, template
length = 8 * byte length, non-empty args_format when given, operand letters
inside VALID_ARGS, declared signed letters among the operand letters, and the
per-operand R2OperandTemplate constructions. -/
def R2InsnTemplate.make (mnemonic : String) (length : Nat) (bits_template : String)
    (args_format : Option String) (signed : Option (List Char)) :
    Option R2InsnTemplate :=
  if mnemonic = "" then none
  else if ¬ 0 < length then none
  else if bits_template = "" then none
  else if ¬ length * 8 = bits_template.length then none
  else if args_format = some "" then none
  else
    let bt : List Char := bits_template.toList.map Char.toLower
    let args : List Char := templateArgs bt
    if ¬ (∀ a ∈ args, a ∈ VALID_ARGS) then none
    else if ¬ (∀ c ∈ signed.getD [], c ∈ args) then none
    else
      match args.mapM
          (fun a => R2OperandTemplate.make a (String.mk bt) (a ∈ signed.getD [])) with
      | none => none
      | some _ =>
        some (R2InsnTemplate.build mnemonic length bits_template args_format
          (signed.getD []))

/-- R2InsnTemplate.match from src/insn.py:
`(instruction & self.mask) == self.bits`. -/
def R2InsnTemplate.matchWord (t : R2InsnTemplate) (instruction : Nat) : Bool :=
  instruction &&& t.mask == t.bits

/-- R2Insn from src/insn.py.  `raw` is assigned after construction by dasm_at;
it defaults to []. -/
structure R2Insn where
  length : Nat
  bits : Nat
  template : Option R2InsnTemplate
  args : Option (List (Char × Int))
  raw : List Nat
deriving DecidableEq

/-- R2InsnTemplate.parse from src/insn.py: extract every operand of the
template (the Python dict is keyed by operand letter; its insertion order is
the opr_templates order). -/
def R2InsnTemplate.parse (t : R2InsnTemplate) (instruction : Nat) : R2Insn :=
  { length := t.length
    bits := instruction
    template := some t
    args := some (t.opr_templates.map (fun p => (p.1, p.2.extract instruction)))
    raw := [] }

/-- INSNS from src/insn.py: the static instruction template table, in
declaration order. -/
def INSNS : List R2InsnTemplate := [
  R2InsnTemplate.build "l.nop" 2 "1000000000000001" none [],
  R2InsnTemplate.build "l.j" 2 "100100nnnnnnnnnn" (some "%n") [],
  R2InsnTemplate.build "bt.trap" 2 "1000000000000010" (some "1") [],
  R2InsnTemplate.build "l.jr?" 2 "100001xxxxxyyyyy" (some "??? r%x, r%y") [],
  R2InsnTemplate.build "l.addi" 2 "100111dddddkkkkk" (some "r%d, r%d, %k") ['k'],
  R2InsnTemplate.build "l.andi?" 2 "100110dddddkkkkk" (some "r%d, r%d, %k") ['k'],
  R2InsnTemplate.build "l.nop" 3 "000000000000000000000000" none [],
  R2InsnTemplate.build "l.lhz" 3 "000010dddddaaaaa00000001" (some "r%d, 0(r%a)") [],
  R2InsnTemplate.build "l.sw" 3 "000011bbbbbaaaaa00000000" (some "0(r%a), r%b") [],
  R2InsnTemplate.build "l.sfgtui" 3 "010111aaaaaiiiiiiii11011" (some "r%a, %i") ['i'],
  R2InsnTemplate.build "?entri?" 3 "010111xxxxyyyyyyyyy11000" (some "??? %x, %y") [],
  R2InsnTemplate.build "l.addi" 3 "000111dddddaaaaakkkkkkkk" (some "r%d, r%a, %k") ['k'],
  R2InsnTemplate.build "l.bf" 3 "001000nnnnnnnnnnnnnnnn01" (some "%n") ['n'],
  R2InsnTemplate.build "l.movhi" 3 "001101100000000000000001" (some "r1, ???") [],
  R2InsnTemplate.build "l.and" 3 "010001dddddaaaaabbbbb100" (some "r%d, r%a, r%b") [],
  R2InsnTemplate.build "l.ori" 3 "010100aaaaabbbbbkkkkkkkk" (some "r%a, r%b, %k") [],
  R2InsnTemplate.build "l.sfeqi" 3 "010111aaaaaiiiii00000001" (some "r%a, %i") [],
  R2InsnTemplate.build "l.sfne" 3 "010111aaaaabbbbb00001101" (some "r%a, r%b") [],
  R2InsnTemplate.build "l.sfgeu" 3 "010111bbbbbaaaaa00010111" (some "r%a, r%b") [],
  R2InsnTemplate.build "l.mul" 3 "010000dddddaaaaabbbbb011" (some "r%d, r%a, r%b") [],
  R2InsnTemplate.build "l.movhi" 4 "110000dddddkkkkkkkkkkkkkkkk00001" (some "r%d, %k") [],
  R2InsnTemplate.build "l.mtspr" 4 "110000bbbbbaaaaakkkkkkkkkkkk1101" (some "r%a, r%b, %k") [],
  R2InsnTemplate.build "l.mfspr" 4 "110000dddddaaaaakkkkkkkkkkkk1111" (some "r%d, r%a, %k") [],
  R2InsnTemplate.build "l.andi" 4 "110001dddddaaaaakkkkkkkkkkkkkkkk" (some "r%d, r%a, %k") [],
  R2InsnTemplate.build "l.ori" 4 "110010dddddaaaaakkkkkkkkkkkkkkkk" (some "r%d, r%a, %k") [],
  R2InsnTemplate.build "l.j" 4 "111010nnnnnnnnnnnnnnnnnnnnnnnn11" (some "%n") [],
  R2InsnTemplate.build "l.sw" 4 "111011bbbbbaaaaaiiiiiiiiiiiiiiii" (some "%i(r%a), r%b") [],
  R2InsnTemplate.build "l.addi" 4 "111111dddddaaaaakkkkkkkkkkkkkkkk" (some "r%d, r%a, %k") [],
  R2InsnTemplate.build "l.bf" 4 "11010100nnnnnnnnnnnnnnnnnnnnnnnn" (some "%n") ['n'],
  R2InsnTemplate.build "l.invalidate_line" 4 "11110100000aaaaa00000000000j0001" (some "0(r%a), %j") [],
  R2InsnTemplate.build "l.invalidate_line" 4 "11110100000aaaaa00000000001j0111" (some "0(r%a), %j") [],
  R2InsnTemplate.build "l.syncwritebuffer" 4 "11110100000000000000000000000101" none []]

/-- FileBuffer.read from src/filebuffer.py at a non-negative offset: seek and
read up to size bytes (fewer near end of file, empty past it). -/
def FileBuffer.read (buf : List Nat) (offset size : Nat) : List Nat :=
  (buf.drop offset).take size

/-- struct.unpack of big-endian bytes into one unsigned integer. -/
def bytesToBE (l : List Nat) : Nat :=
  l.foldl (fun acc b => acc * 256 + b) 0

/-- The tail of dasm_at from src/r2dasm.py after the length check: the first
template of the classified length that matches the word wins
(`for templ in INSNS: ... return insn`); no match yields the unrecognized
instruction. -/
def dasm_finish (length bits : Nat) (raw : List Nat) :
    Option R2InsnTemplate → Except String R2Insn
  | some templ => .ok { templ.parse bits with raw := raw }
  | none => .ok { length := length, bits := bits, template := none, args := none, raw := raw }

/-- dasm_at from src/r2dasm.py acting on the up-to-4 bytes read at the offset.
An empty read makes the one-byte unpack of data[0:1] raise struct.error.  Otherwise
the byte length is classified from the top three bits of the first byte,
raw is data[0:length], and the big-endian 4-byte unpack of the padded raw bytes raises
struct.error when fewer than `length` bytes were read; otherwise the word is
the big-endian value of the zero-extended raw bytes and the template scan
runs (INSNS.find? is the first-match loop). -/
def dasm_core : List Nat → Except String R2Insn
  | [] => .error "struct.error: unpack B requires a buffer of 1 bytes"
  | ms_byte :: tail =>
    if ((ms_byte :: tail).take (INSN_LENGTH_IDX.getD (ms_byte >>> 5) 0)).length
        ≠ INSN_LENGTH_IDX.getD (ms_byte >>> 5) 0 then
      .error "struct.error: unpack I requires a buffer of 4 bytes"
    else
      dasm_finish (INSN_LENGTH_IDX.getD (ms_byte >>> 5) 0)
        (bytesToBE ((ms_byte :: tail).take (INSN_LENGTH_IDX.getD (ms_byte >>> 5) 0)))
        ((ms_byte :: tail).take (INSN_LENGTH_IDX.getD (ms_byte >>> 5) 0))
        (INSNS.find? (fun templ =>
          templ.length == INSN_LENGTH_IDX.getD (ms_byte >>> 5) 0 &&
          templ.matchWord
            (bytesToBE ((ms_byte :: tail).take (INSN_LENGTH_IDX.getD (ms_byte >>> 5) 0)))))

/-- dasm_at from src/r2dasm.py: read up to 4 bytes at the offset and decode
them. -/
def dasm_at (fbuf : List Nat) (offset : Nat) : Except String R2Insn :=
  dasm_core (FileBuffer.read fbuf offset 4)

/-- Python f-string `{n:d}` on a non-negative int (decimal digits). -/
def natDecStr (n : Nat) : String := Nat.repr n

/-- Lowercase hexadecimal digits of a Nat, as produced by Python `{n:x}`. -/
def natHexStr (n : Nat) : String := String.mk (Nat.toDigits 16 n)

/-- Python f-string `{v:#x}` on an int: `0x` prefix, lowercase digits, and a
leading minus sign for negative values. -/
def pyHexString (v : Int) : String :=
  if v < 0 then "-0x" ++ natHexStr (-v).toNat else "0x" ++ natHexStr v.toNat

/-- R2Insn.arg_subst from src/insn.py for one regex match of `(r?)%(.)`:
group1 tells whether the optional `r` was matched, group2 is the character
after `%`.  `none` models a failed assertion. -/
def R2Insn.arg_subst (insn : R2Insn) (group1 : Bool) (group2 : Char) : Option String :=
  if group2 = '%' then some "%"
  else if group2 ∉ VALID_ARGS then none
  else
    insn.args.bind (fun m =>
      (m.lookup group2).bind (fun value =>
        if group1 then
          if 0 ≤ value then some ("r" ++ natDecStr value.toNat) else none
        else some (pyHexString value)))

/-- The re.sub of pattern (r?)%(.) with self.arg_subst from R2Insn.__str__: leftmost
non-overlapping matches of an optional `r` followed by `%` and any character,
each replaced by arg_subst. -/
def R2Insn.substArgsList (insn : R2Insn) : List Char → Option (List Char)
  | [] => some []
  | 'r' :: '%' :: c :: rest =>
    match insn.arg_subst true c, insn.substArgsList rest with
    | some s, some r => some (s.toList ++ r)
    | _, _ => none
  | '%' :: c :: rest =>
    match insn.arg_subst false c, insn.substArgsList rest with
    | some s, some r => some (s.toList ++ r)
    | _, _ => none
  | ch :: rest =>
    match insn.substArgsList rest with
    | some r => some (ch :: r)
    | none => none

/-- Python `{s:12s}`: left-justify to 12 columns. -/
def padTo12 (s : String) : String :=
  s ++ String.mk (List.replicate (12 - s.length) ' ')

/-- R2Insn.__str__ from src/insn.py: the fixed `*unk*` marker for an
unrecognized instruction, otherwise the padded mnemonic and the substituted
args_format. -/
def R2Insn.toStr (insn : R2Insn) : Option String :=
  match insn.template with
  | none => some "*unk*"
  | some t =>
    match insn.substArgsList t.args_format.toList with
    | some args => some (padTo12 t.mnemonic ++ " " ++ String.mk args)
    | none => none

/-! Reference definitions used to state and settle the claims. -/

/-- Bit-by-bit reference extraction: walk the template bits least significant
first and pack the instruction-word bits found at the operand letter positions
into the low bits of the result, in order of significance. -/
def gatherBits (arg : Char) : List Char → Nat → Nat
  | [], _ => 0
  | ch :: rest, w =>
    if ch = arg then (w &&& 1) ||| (gatherBits arg rest (w >>> 1)) <<< 1
    else gatherBits arg rest (w >>> 1)

/-- Bit-by-bit deposit, the inverse direction: walk the template bits least
significant first and place the low bits of the pattern, in order, at the
operand letter positions of an otherwise-zero instruction word. -/
def scatterBits (arg : Char) : List Char → Nat → Nat
  | [], _ => 0
  | ch :: rest, v =>
    if ch = arg then (v &&& 1) ||| (scatterBits arg rest (v >>> 1)) <<< 1
    else (scatterBits arg rest v) <<< 1

/-- Deposit a bit pattern into the operand letter positions that a template
string declares (the claim side of the round-trip property): bit k of the
pattern goes to the k-th least significant position holding the letter. -/
def depositValue (arg : Char) (template : String) (pattern : Nat) : Nat :=
  scatterBits arg template.toList.reverse pattern

/-- One past the most significant value bit produced by the head range of the
scan accumulator (0 for an empty accumulator). -/
def valTop : List BitRange → Nat
  | [] => 0
  | r :: _ => r.value_offset + r.length

/-- OR of all extracted parts of a list of ranges (order independent). -/
def orParts (rs : List BitRange) (w : Nat) : Nat :=
  rs.foldr (fun r v => r.extract_part w ||| v) 0

/-- An instruction bit position is covered by one of the ranges. -/
def covers (rs : List BitRange) (p : Nat) : Prop :=
  ∃ r ∈ rs, r.insn_offset ≤ p ∧ p < r.insn_offset + r.length

/-- The template (listed least significant bit first, starting at bit position
pos) holds the operand letter at instruction bit position p. -/
def hasArgAt (arg : Char) : List Char → Nat → Nat → Prop
  | [], _, _ => False
  | ch :: rest, pos, p => (ch = arg ∧ p = pos) ∨ hasArgAt arg rest (pos + 1) p

/-- The ranges, most significant first, occupy strictly descending disjoint
instruction bit intervals below pos. -/
def stacked : List BitRange → Nat → Prop
  | [], _ => True
  | r :: tail, pos => r.insn_offset + r.length ≤ pos ∧ stacked tail r.insn_offset

/-- The ranges, most significant first, tile the value interval [0, v). -/
def tiledTo : List BitRange → Nat → Prop
  | [], v => v = 0
  | r :: tail, v => v = r.value_offset + r.length ∧ tiledTo tail r.value_offset

/-- The ranges, least significant first, tile the value bits contiguously
starting at v, in order of significance. -/
def tiledFrom : List BitRange → Nat → Prop
  | [], _ => True
  | r :: tail, v => r.value_offset = v ∧ tiledFrom tail (v + r.length)

/-- Total bit length of a list of ranges. -/
def sumLen (rs : List BitRange) : Nat := (rs.map BitRange.length).sum

/-- All placeholders of a format string, as matched by `(r?)%(.)`: a flag for
the register prefix and the character following the percent sign. -/
def formatPlaceholders : List Char → List (Bool × Char)
  | [] => []
  | 'r' :: '%' :: c :: rest => (true, c) :: formatPlaceholders rest
  | '%' :: c :: rest => (false, c) :: formatPlaceholders rest
  | _ :: rest => formatPlaceholders rest

/-- A placeholder that always renders: the literal escape, or an operand
letter of the template whose operand is unsigned whenever the placeholder
carries the register prefix. -/
def placeholderOk (t : R2InsnTemplate) (p : Bool × Char) : Bool :=
  p.2 == '%' ||
    (decide (p.2 ∈ VALID_ARGS) &&
      match t.opr_templates.lookup p.2 with
      | some ot => !p.1 || !ot.signed
      | none => false)

/-- Decidable render safety of one instruction template. -/
def checkTemplate (t : R2InsnTemplate) : Bool :=
  (formatPlaceholders t.args_format.toList).all (placeholderOk t)

/-! Concrete instances used by the witnesses. -/

/-- The 2-byte l.addi template (INSNS entry with a signed operand). -/
def laddiTemplate : R2InsnTemplate :=
  R2InsnTemplate.build "l.addi" 2 "100111dddddkkkkk" (some "r%d, r%d, %k") ['k']

/-- l.addi parsed at the word with both operand fields all ones. -/
def laddiExample : R2Insn := { laddiTemplate.parse 0x9FFF with raw := [0x9F, 0xFF] }

/-- The first INSNS entry. -/
def lnopTemplate : R2InsnTemplate :=
  R2InsnTemplate.build "l.nop" 2 "1000000000000001" none []

/-- The decode of the 2-byte word 0x8001 (matches lnopTemplate). -/
def lnopInsn : R2Insn := { lnopTemplate.parse 0x8001 with raw := [0x80, 0x01] }

/-- The 16-bit signed operand n of the 3-byte l.bf template. -/
def lbfOperand : R2OperandTemplate :=
  R2OperandTemplate.build 'n' "001000nnnnnnnnnnnnnnnn01" true

/-- The 5-bit unsigned operand d of the 2-byte l.addi template. -/
def laddiDOperand : R2OperandTemplate :=
  R2OperandTemplate.build 'd' "100111dddddkkkkk" false

/-- The 5-bit signed operand k of the 2-byte l.addi template. -/
def laddiKOperand : R2OperandTemplate :=
  R2OperandTemplate.build 'k' "100111dddddkkkkk" true

/-- An operand template with a split bit field (two runs). -/
def kSplitOperand : R2OperandTemplate :=
  R2OperandTemplate.build 'k' "kk0kk110" false

/-! Bitwise helper lemmas. -/

theorem shl_one_sub_one (n : Nat) : (1 <<< n) - 1 = 2 ^ n - 1 := by
  rw [Nat.shiftLeft_eq, one_mul]

theorem or_shiftLeft_distrib (a b k : Nat) : (a ||| b) <<< k = (a <<< k) ||| (b <<< k) := by
  apply Nat.eq_of_testBit_eq; intro i
  simp [Nat.testBit_shiftLeft, Nat.testBit_or, Bool.and_or_distrib_left]

theorem shiftLeft_shiftLeft (a m n : Nat) : (a <<< m) <<< n = a <<< (m + n) :=
  (Nat.shiftLeft_add a m n).symm

theorem one_testBit (i : Nat) : (1 : Nat).testBit i = decide (0 = i) := by
  have h : (1 : Nat) = 2 ^ 0 := rfl
  rw [h, Nat.testBit_two_pow]

theorem and_one_testBit (x i : Nat) : (x &&& 1).testBit i = (x.testBit i && decide (0 = i)) := by
  rw [Nat.testBit_and, one_testBit]

theorem extract_part_extend (len io vo w : Nat) :
    BitRange.extract_part ⟨len + 1, io, vo⟩ w
      = BitRange.extract_part ⟨len, io, vo⟩ w ||| (((w >>> (io + len)) &&& 1) <<< (vo + len)) := by
  apply Nat.eq_of_testBit_eq; intro i
  simp only [BitRange.extract_part, shl_one_sub_one, Nat.testBit_or, Nat.testBit_shiftLeft,
    Nat.testBit_and, Nat.testBit_shiftRight, Nat.testBit_two_pow_sub_one, and_one_testBit,
    ge_iff_le]
  by_cases h1 : vo ≤ i
  · by_cases h2 : i - vo < len
    · have h3 : ¬ (vo + len ≤ i) := by omega
      have h4 : i - vo < len + 1 := by omega
      simp [h1, h2, h3, h4]
    · by_cases h4 : i - vo = len
      · have h5 : vo + len ≤ i := by omega
        have h6 : i - (vo + len) = 0 := by omega
        simp [h1, h2, h4, h5, h6]
      · have h5 : ¬ (i - vo < len + 1) := by omega
        have h6 : ¬ (vo + len ≤ i) ∨ ¬ (0 = i - (vo + len)) := by omega
        rcases h6 with h6 | h6 <;> simp [h1, h2, h5, h6, one_testBit]
  · have h2 : ¬ (vo + len ≤ i) := by omega
    simp [h1, h2]

theorem nat_or_left_comm (a b c : Nat) : a ||| (b ||| c) = b ||| (a ||| c) := by
  rw [← Nat.or_assoc, Nat.or_comm a b, Nat.or_assoc]

theorem extract_part_single (pos vo w : Nat) :
    BitRange.extract_part ⟨1, pos, vo⟩ w = ((w >>> pos) &&& 1) <<< vo := by
  have h : (1 <<< 1 : Nat) - 1 = 1 := by decide
  simp [BitRange.extract_part, h]

theorem orParts_cons (r : BitRange) (rs : List BitRange) (w : Nat) :
    orParts (r :: rs) w = r.extract_part w ||| orParts rs w := rfl

theorem orParts_append (l1 l2 : List BitRange) (w : Nat) :
    orParts (l1 ++ l2) w = orParts l1 w ||| orParts l2 w := by
  induction l1 with
  | nil => simp [orParts, Nat.zero_or]
  | cons r t ih => simp only [List.cons_append, orParts_cons, ih, Nat.or_assoc]

theorem orParts_reverse (l : List BitRange) (w : Nat) :
    orParts l.reverse w = orParts l w := by
  induction l with
  | nil => rfl
  | cons r t ih =>
    rw [List.reverse_cons, orParts_append, ih, orParts_cons]
    simp only [orParts, List.foldr, Nat.or_zero]
    rw [Nat.or_comm]

theorem scan_orParts (arg : Char) (w : Nat) :
    ∀ (tl : List Char) (pos : Nat) (acc : List BitRange),
      orParts (scanRangesAux arg tl pos acc) w
        = orParts acc w ||| (gatherBits arg tl (w >>> pos)) <<< valTop acc := by
  intro tl
  induction tl with
  | nil =>
    intro pos acc
    simp [scanRangesAux, gatherBits, Nat.zero_shiftLeft, Nat.or_zero]
  | cons ch rest ih =>
    intro pos acc
    rw [scanRangesAux, ih (pos + 1) (pushBit arg ch pos acc)]
    by_cases hch : ch = arg
    · rw [gatherBits]
      simp only [if_pos hch]
      rw [← Nat.shiftRight_add w pos 1]
      cases acc with
      | nil =>
        simp only [pushBit, if_pos hch, valTop, orParts_cons, orParts, List.foldr,
          Nat.or_zero, Nat.zero_or, extract_part_single]
        simp [or_shiftLeft_distrib, shiftLeft_shiftLeft, Nat.shiftLeft_zero]
      | cons r tail =>
        obtain ⟨len, io, vo⟩ := r
        simp only [pushBit, if_pos hch]
        by_cases h2 : io + len = pos
        · rw [if_pos h2]
          rw [orParts_cons, orParts_cons, extract_part_extend, h2]
          simp only [valTop]
          rw [or_shiftLeft_distrib, shiftLeft_shiftLeft]
          have e1 : vo + (len + 1) = vo + len + 1 := by omega
          have e2 : (1 : Nat) + (vo + len) = vo + len + 1 := by omega
          rw [e1, e2]
          simp only [Nat.or_assoc, Nat.or_comm, nat_or_left_comm]
        · rw [if_neg h2]
          rw [orParts_cons, orParts_cons, extract_part_single]
          simp only [valTop]
          rw [or_shiftLeft_distrib, shiftLeft_shiftLeft]
          have e2 : (1 : Nat) + (vo + len) = vo + len + 1 := by omega
          rw [e2]
          simp only [Nat.or_assoc, Nat.or_comm, nat_or_left_comm]
    · rw [gatherBits]
      simp only [if_neg hch]
      rw [← Nat.shiftRight_add w pos 1]
      unfold pushBit
      simp only [if_neg hch]
      cases acc <;> rfl

theorem foldl_or_eq (f : BitRange → Nat) (l : List BitRange) :
    ∀ b : Nat, l.foldl (fun v r => v ||| f r) b = b ||| l.foldr (fun r v => f r ||| v) 0 := by
  induction l with
  | nil => intro b; simp [Nat.or_zero]
  | cons r t ih =>
    intro b
    simp only [List.foldl, List.foldr]
    rw [ih, Nat.or_assoc]

theorem rawValue_eq_gather (arg : Char) (template : String) (s : Bool) (w : Nat) :
    (R2OperandTemplate.build arg template s).rawValue w
      = gatherBits arg (((template.toList.map Char.toLower).map
          (fun ch => if ch = arg then arg else '-')).reverse) w := by
  unfold R2OperandTemplate.rawValue R2OperandTemplate.build
  simp only []
  rw [foldl_or_eq (fun r => r.extract_part w), Nat.zero_or]
  have h : ∀ rs : List BitRange,
      rs.foldr (fun r v => r.extract_part w ||| v) 0 = orParts rs w := fun _ => rfl
  rw [h, orParts_reverse, scan_orParts]
  simp [orParts, valTop, Nat.shiftLeft_zero, Nat.shiftRight_zero, Nat.zero_or]

theorem gatherBits_lt (arg : Char) (tl : List Char) :
    ∀ w : Nat, gatherBits arg tl w < 2 ^ (tl.count arg) := by
  induction tl with
  | nil => intro w; simp [gatherBits]
  | cons ch rest ih =>
    intro w
    rw [gatherBits]
    by_cases h : ch = arg
    · rw [if_pos h]
      have hc : (ch :: rest).count arg = rest.count arg + 1 := by
        simp [List.count_cons, h]
      rw [hc]
      have h1 : w &&& 1 ≤ 1 := Nat.and_le_right
      have h2 : gatherBits arg rest (w >>> 1) < 2 ^ rest.count arg := ih _
      have h3 : 0 < 2 ^ rest.count arg := Nat.two_pow_pos _
      have h4 : (2 : Nat) ^ (rest.count arg + 1) = 2 ^ rest.count arg * 2 := pow_succ 2 _
      apply Nat.or_lt_two_pow
      · omega
      · rw [Nat.shiftLeft_eq, pow_one]
        omega
    · rw [if_neg h]
      have hc : (ch :: rest).count arg = rest.count arg := by
        simp [List.count_cons, h]
      rw [hc]
      exact ih _

theorem bit_recombine (x : Nat) : (x &&& 1) ||| ((x >>> 1) <<< 1) = x := by
  apply Nat.eq_of_testBit_eq; intro i
  simp only [Nat.testBit_or, and_one_testBit, Nat.testBit_shiftLeft, Nat.testBit_shiftRight,
    ge_iff_le]
  cases i with
  | zero => simp
  | succ n => simp [Nat.add_sub_cancel, Nat.add_comm]

theorem or_shl_and_one (x y : Nat) : ((x &&& 1) ||| (y <<< 1)) &&& 1 = x &&& 1 := by
  apply Nat.eq_of_testBit_eq; intro i
  simp only [and_one_testBit, Nat.testBit_or, Nat.testBit_shiftLeft, ge_iff_le]
  cases i with
  | zero => simp
  | succ n => simp

theorem or_shl_shiftRight_one (x y : Nat) : ((x &&& 1) ||| (y <<< 1)) >>> 1 = y := by
  apply Nat.eq_of_testBit_eq; intro i
  simp only [Nat.testBit_shiftRight, Nat.testBit_or, and_one_testBit, Nat.testBit_shiftLeft,
    ge_iff_le]
  simp [Nat.add_comm]

theorem gather_scatter (arg : Char) (tl : List Char) :
    ∀ v : Nat, v < 2 ^ (tl.count arg) → gatherBits arg tl (scatterBits arg tl v) = v := by
  induction tl with
  | nil =>
    intro v hv
    simp only [List.count_nil, pow_zero] at hv
    simp [gatherBits, scatterBits]
    omega
  | cons ch rest ih =>
    intro v hv
    rw [scatterBits, gatherBits]
    by_cases h : ch = arg
    · rw [if_pos h, if_pos h]
      rw [or_shl_and_one, or_shl_shiftRight_one]
      have hc : (ch :: rest).count arg = rest.count arg + 1 := by
        simp [List.count_cons, h]
      rw [hc, pow_succ] at hv
      have hv2 : v >>> 1 < 2 ^ rest.count arg := by
        rw [Nat.shiftRight_one]
        omega
      rw [ih _ hv2]
      exact bit_recombine v
    · rw [if_neg h, if_neg h]
      rw [Nat.shiftLeft_shiftRight]
      have hc : (ch :: rest).count arg = rest.count arg := by
        simp [List.count_cons, h]
      rw [hc] at hv
      exact ih _ hv

theorem xor_shiftRight_one (x y : Nat) : (x ^^^ y) >>> 1 = (x >>> 1) ^^^ (y >>> 1) := by
  apply Nat.eq_of_testBit_eq; intro i
  simp [Nat.testBit_shiftRight, Nat.testBit_xor]

theorem xor_mask_mod_two (a n : Nat) :
    (a ^^^ (2 ^ (n + 1) - 1)) % 2 = 1 - a % 2 := by
  have h := Nat.testBit_xor a (2 ^ (n + 1) - 1) 0
  rw [Nat.testBit_two_pow_sub_one, Nat.testBit_zero, Nat.testBit_zero] at h
  have hu := Nat.mod_two_eq_zero_or_one (a ^^^ (2 ^ (n + 1) - 1))
  have hd : (decide (0 < n + 1)) = true := by simp
  rw [hd, Bool.xor_true] at h
  by_cases ha0 : a % 2 = 1
  · rw [decide_eq_true ha0, Bool.not_true] at h
    have := of_decide_eq_false h
    omega
  · rw [decide_eq_false ha0, Bool.not_false] at h
    have := of_decide_eq_true h
    omega

theorem xor_ones (n : Nat) : ∀ a : Nat, a < 2 ^ n → a ^^^ (2 ^ n - 1) = 2 ^ n - 1 - a := by
  induction n with
  | zero =>
    intro a ha
    have : a = 0 := by omega
    subst this
    rfl
  | succ n ih =>
    intro a ha
    have hp := Nat.two_pow_pos n
    have hps : (2 : Nat) ^ (n + 1) = 2 ^ n * 2 := pow_succ 2 n
    have hmask : (2 : Nat) ^ (n + 1) - 1 = 2 * (2 ^ n - 1) + 1 := by omega
    have hd2 : a / 2 < 2 ^ n := by omega
    have hx1 : (a ^^^ (2 ^ (n + 1) - 1)) % 2 = 1 - a % 2 := xor_mask_mod_two a n
    have hx2 : (a ^^^ (2 ^ (n + 1) - 1)) / 2 = 2 ^ n - 1 - a / 2 := by
      rw [← Nat.shiftRight_one, xor_shiftRight_one, Nat.shiftRight_one, Nat.shiftRight_one,
        hmask]
      have h2 : (2 * (2 ^ n - 1) + 1) / 2 = 2 ^ n - 1 := by omega
      rw [h2, ih _ hd2]
    have hfin := Nat.div_add_mod (a ^^^ (2 ^ (n + 1) - 1)) 2
    have hda := Nat.div_add_mod a 2
    have hm := Nat.mod_two_eq_zero_or_one a
    omega

theorem and_shl_ne_zero (a k : Nat) : ((a &&& (1 <<< k)) ≠ 0) ↔ a.testBit k = true := by
  rw [Nat.shiftLeft_eq, one_mul, Nat.and_two_pow]
  cases h : a.testBit k <;> simp [h, (Nat.two_pow_pos k).ne']

theorem testBit_top_of_lt (a n : Nat) (ha : a < 2 ^ (n + 1)) :
    a.testBit n = decide (2 ^ n ≤ a) := by
  rw [Nat.testBit_to_div_mod]
  have hps : (2 : Nat) ^ (n + 1) = 2 ^ n * 2 := pow_succ 2 n
  by_cases h : 2 ^ n ≤ a
  · have hdiv : a / 2 ^ n = 1 := by
      apply Nat.div_eq_of_lt_le
      · simpa using h
      · omega
    rw [hdiv]
    simp [h]
  · have hdiv : a / 2 ^ n = 0 := Nat.div_eq_of_lt (by omega)
    rw [hdiv]
    simp [h]

theorem map_id_of_mem {l : List Char} {f : Char → Char} (h : ∀ x ∈ l, f x = x) :
    l.map f = l := by
  induction l with
  | nil => rfl
  | cons a t ih =>
    rw [List.map_cons, h a (List.mem_cons_self a t),
      ih (fun x hx => h x (List.mem_cons_of_mem a hx))]

theorem valid_arg_ne_dash {arg : Char} (h : arg ∈ VALID_ARGS) : arg ≠ '-' := by
  fin_cases h <;> decide

theorem gatherBits_map_norm (arg : Char) (harg : arg ≠ '-') (l : List Char) :
    ∀ w, gatherBits arg (l.map (fun ch => if ch = arg then arg else '-')) w
      = gatherBits arg l w := by
  induction l with
  | nil => intro w; rfl
  | cons ch rest ih =>
    intro w
    have h2 : ¬('-' = arg) := fun he => harg he.symm
    by_cases h : ch = arg
    · simp [gatherBits, h, ih]
    · simp [gatherBits, h, h2, ih]

theorem count_map_norm (arg : Char) (harg : arg ≠ '-') (l : List Char) :
    (l.map (fun ch => if ch = arg then arg else '-')).count arg = l.count arg := by
  induction l with
  | nil => rfl
  | cons ch rest ih =>
    have h2 : ¬('-' = arg) := fun he => harg he.symm
    by_cases h : ch = arg
    · simp [List.count_cons, h, ih]
    · simp [List.count_cons, h, h2, ih]

theorem rawValue_build_eq (arg : Char) (template : String) (s : Bool)
    (harg : arg ≠ '-') (hlow : ∀ ch ∈ template.toList, Char.toLower ch = ch) (w : Nat) :
    (R2OperandTemplate.build arg template s).rawValue w
      = gatherBits arg template.toList.reverse w := by
  rw [rawValue_eq_gather, map_id_of_mem hlow, ← List.map_reverse]
  exact gatherBits_map_norm arg harg _ w

theorem bit_length_build (arg : Char) (template : String) (s : Bool) :
    (R2OperandTemplate.build arg template s).bit_length = template.toList.count arg := rfl

theorem signed_build (arg : Char) (template : String) (s : Bool) :
    (R2OperandTemplate.build arg template s).signed = s := rfl

theorem rawValue_build_lt (arg : Char) (template : String) (s : Bool)
    (harg : arg ≠ '-') (hlow : ∀ ch ∈ template.toList, Char.toLower ch = ch) (w : Nat) :
    (R2OperandTemplate.build arg template s).rawValue w
      < 2 ^ (R2OperandTemplate.build arg template s).bit_length := by
  rw [rawValue_build_eq arg template s harg hlow, bit_length_build,
    ← List.count_reverse arg template.toList]
  exact gatherBits_lt arg template.toList.reverse w

theorem extract_signed_eq (arg : Char) (template : String)
    (harg : arg ≠ '-') (hlow : ∀ ch ∈ template.toList, Char.toLower ch = ch)
    (hmem : arg ∈ template.toList) (w : Nat) :
    (R2OperandTemplate.build arg template true).extract w
      = (if ((R2OperandTemplate.build arg template true).rawValue w).testBit
            ((R2OperandTemplate.build arg template true).bit_length - 1)
        then (((R2OperandTemplate.build arg template true).rawValue w : Int)
          - 2 ^ (R2OperandTemplate.build arg template true).bit_length)
        else ((R2OperandTemplate.build arg template true).rawValue w : Int)) := by
  have hn : 0 < (R2OperandTemplate.build arg template true).bit_length := by
    rw [bit_length_build]
    exact List.count_pos_iff.mpr hmem
  have ha := rawValue_build_lt arg template true harg hlow w
  set t := R2OperandTemplate.build arg template true with ht
  set a := t.rawValue w with ha2
  set n := t.bit_length with hn2
  unfold R2OperandTemplate.extract
  rw [show t.signed = true from rfl]
  simp only [if_true, ← ha2, ← hn2]
  by_cases hbit : a.testBit (n - 1) = true
  · have hne : (a &&& (1 <<< (n - 1))) ≠ 0 := (and_shl_ne_zero a (n - 1)).mpr hbit
    rw [if_pos hne, if_pos hbit, shl_one_sub_one, xor_ones n a ha]
    have h1 : 2 ^ n - 1 - a + 1 = 2 ^ n - a := by omega
    rw [h1]
    have h2 : a ≤ 2 ^ n := le_of_lt ha
    push_cast [h2]
    ring
  · have hne : ¬ ((a &&& (1 <<< (n - 1))) ≠ 0) := fun hc => hbit ((and_shl_ne_zero a (n - 1)).mp hc)
    rw [if_neg hne, if_neg hbit]

theorem roundtrip_unsigned (arg : Char) (template : String)
    (harg : arg ≠ '-') (hlow : ∀ ch ∈ template.toList, Char.toLower ch = ch)
    (v : Nat) (hv : v < 2 ^ template.toList.count arg) :
    (R2OperandTemplate.build arg template false).extract (depositValue arg template v)
      = (v : Int) := by
  unfold R2OperandTemplate.extract
  rw [show (R2OperandTemplate.build arg template false).signed = false from rfl]
  simp only [Bool.false_eq_true, if_false]
  congr 1
  rw [rawValue_build_eq arg template false harg hlow]
  unfold depositValue
  exact gather_scatter arg template.toList.reverse v (by rwa [List.count_reverse])

theorem signed_interp_eq (m : Nat) (v : Int)
    (h1 : -(2 ^ m : Int) ≤ v) (h2 : v < 2 ^ m) (p : Nat)
    (hpc : (p : Int) = v % ((2 : Int) ^ (m + 1))) :
    (if 2 ^ m ≤ p then (p : Int) - (2 : Int) ^ (m + 1) else (p : Int)) = v := by
  have hps : (2 : Int) ^ (m + 1) = 2 ^ m * 2 := pow_succ 2 m
  have hmpos : (0 : Int) < 2 ^ m := by positivity
  have hbpos : (0 : Int) < 2 ^ (m + 1) := by positivity
  by_cases hv : 0 ≤ v
  · have hmod : v % ((2 : Int) ^ (m + 1)) = v := Int.emod_eq_of_lt hv (by omega)
    have hpv : (p : Int) = v := by rw [hpc, hmod]
    have hnle : ¬ (2 ^ m ≤ p) := by
      intro hc
      have hc2 : ((2 ^ m : Nat) : Int) ≤ (p : Int) := Nat.cast_le.mpr hc
      push_cast at hc2
      omega
    rw [if_neg hnle, hpv]
  · push_neg at hv
    have hmod : v % ((2 : Int) ^ (m + 1)) = v + 2 ^ (m + 1) := by
      rw [← Int.add_mul_emod_self_left v (2 ^ (m + 1)) 1, mul_one]
      exact Int.emod_eq_of_lt (by omega) (by omega)
    have hpv : (p : Int) = v + 2 ^ (m + 1) := by rw [hpc, hmod]
    have hle : 2 ^ m ≤ p := by
      have hc2 : ((2 ^ m : Nat) : Int) ≤ (p : Int) := by
        push_cast
        omega
      exact_mod_cast hc2
    rw [if_pos hle, hpv]
    ring

theorem roundtrip_signed (arg : Char) (template : String)
    (harg : arg ≠ '-') (hlow : ∀ ch ∈ template.toList, Char.toLower ch = ch)
    (hmem : arg ∈ template.toList) (v : Int)
    (h1 : -((2 : Int) ^ (template.toList.count arg - 1)) ≤ v)
    (h2 : v < (2 : Int) ^ (template.toList.count arg - 1)) :
    (R2OperandTemplate.build arg template true).extract
      (depositValue arg template
        ((v % ((2 : Int) ^ (template.toList.count arg))).toNat))
      = v := by
  have hn : 0 < template.toList.count arg := List.count_pos_iff.mpr hmem
  obtain ⟨m, hm⟩ : ∃ m, template.toList.count arg = m + 1 :=
    ⟨template.toList.count arg - 1, (Nat.succ_pred_eq_of_pos hn).symm⟩
  have hbpos : (0 : Int) < 2 ^ template.toList.count arg := by positivity
  have hmod1 : 0 ≤ v % ((2 : Int) ^ template.toList.count arg) :=
    Int.emod_nonneg v (ne_of_gt hbpos)
  have hmod2 : v % ((2 : Int) ^ template.toList.count arg)
      < (2 : Int) ^ template.toList.count arg := Int.emod_lt_of_pos v hbpos
  have hpc : (((v % ((2 : Int) ^ template.toList.count arg)).toNat : Nat) : Int)
      = v % ((2 : Int) ^ template.toList.count arg) := Int.toNat_of_nonneg hmod1
  have hplt : (v % ((2 : Int) ^ template.toList.count arg)).toNat
      < 2 ^ template.toList.count arg := by
    have hcast : (((v % ((2 : Int) ^ template.toList.count arg)).toNat : Nat) : Int)
        < ((2 ^ template.toList.count arg : Nat) : Int) := by
      push_cast
      omega
    exact_mod_cast hcast
  have hraw : (R2OperandTemplate.build arg template true).rawValue
      (depositValue arg template ((v % ((2 : Int) ^ template.toList.count arg)).toNat))
      = (v % ((2 : Int) ^ template.toList.count arg)).toNat := by
    rw [rawValue_build_eq arg template true harg hlow]
    unfold depositValue
    exact gather_scatter arg template.toList.reverse _ (by rwa [List.count_reverse])
  rw [extract_signed_eq arg template harg hlow hmem, hraw, bit_length_build]
  rw [hm] at hplt ⊢
  rw [Nat.add_sub_cancel, testBit_top_of_lt _ m hplt]
  simp only [decide_eq_true_eq]
  apply signed_interp_eq m v (by rw [hm] at h1; simpa using h1) (by rw [hm] at h2; simpa using h2)
  rw [← hm]
  exact hpc

theorem make_some_elim {arg : Char} {template : String} {s : Bool} {t : R2OperandTemplate}
    (h : R2OperandTemplate.make arg template s = some t) :
    arg ∈ VALID_ARGS ∧ arg ∈ template.toList.map Char.toLower
      ∧ t = R2OperandTemplate.build arg template s := by
  unfold R2OperandTemplate.make at h
  by_cases h1 : arg ∈ VALID_ARGS
  · rw [if_pos h1] at h
    by_cases h2 : arg ∈ template.toList.map Char.toLower
    · rw [if_pos h2] at h
      exact ⟨h1, h2, (Option.some.inj h).symm⟩
    · rw [if_neg h2] at h
      exact absurd h (by simp)
  · rw [if_neg h1] at h
    exact absurd h (by simp)

/-- Claim C1: for every operand template built from a valid template string,
depositing the n-bit twos-complement pattern of a value into the declared
bit positions of an otherwise-zero word and extracting returns the value:
all unsigned values below 2 to the bit_length round-trip through an unsigned
operand, and all signed values of the twos-complement range round-trip
through a signed operand. -/
theorem C1_roundtrip (arg : Char) (template : String) (s : Bool) (t : R2OperandTemplate)
    (hmake : R2OperandTemplate.make arg template s = some t)
    (hlow : ∀ ch ∈ template.toList, Char.toLower ch = ch) :
    (s = false → ∀ v : Nat, v < 2 ^ t.bit_length →
        t.extract (depositValue arg template v) = (v : Int))
    ∧ (s = true → ∀ v : Int,
        -((2 : Int) ^ (t.bit_length - 1)) ≤ v → v < (2 : Int) ^ (t.bit_length - 1) →
        t.extract (depositValue arg template ((v % ((2 : Int) ^ t.bit_length)).toNat))
          = v) := by
  obtain ⟨hva, hmem0, rfl⟩ := make_some_elim hmake
  have harg := valid_arg_ne_dash hva
  have hmem : arg ∈ template.toList := by rwa [map_id_of_mem hlow] at hmem0
  simp only [bit_length_build]
  constructor
  · rintro rfl
    intro v hv
    exact roundtrip_unsigned arg template harg hlow v hv
  · rintro rfl
    intro v h1 h2
    exact roundtrip_signed arg template harg hlow hmem v h1 h2

theorem C1_roundtrip_witness :
    (R2OperandTemplate.make 'd' "100111dddddkkkkk" false = some laddiDOperand)
    ∧ (∀ ch ∈ "100111dddddkkkkk".toList, Char.toLower ch = ch)
    ∧ 21 < 2 ^ laddiDOperand.bit_length
    ∧ laddiDOperand.extract (depositValue 'd' "100111dddddkkkkk" 21) = (21 : Int)
    ∧ (R2OperandTemplate.make 'k' "100111dddddkkkkk" true = some laddiKOperand)
    ∧ laddiKOperand.extract (depositValue 'k' "100111dddddkkkkk"
        (((-3 : Int) % ((2 : Int) ^ laddiKOperand.bit_length)).toNat)) = (-3 : Int) :=
  ⟨by decide, by decide, by decide,
    (C1_roundtrip 'd' "100111dddddkkkkk" false laddiDOperand (by decide) (by decide)).1
      rfl 21 (by decide),
    by decide,
    (C1_roundtrip 'k' "100111dddddkkkkk" true laddiKOperand (by decide) (by decide)).2
      rfl (-3) (by decide) (by decide)⟩

/-- Claim C2: for every signed operand template, extract ORs the repositioned
range parts into an accumulator and interprets it in twos complement: with
the sign bit (bit bit_length - 1) set the result is the accumulator minus 2 to
the bit_length (the flip-increment-negate computation), otherwise the
accumulator itself; in particular a 16-bit signed operand whose raw bits are
all ones extracts to -1. -/
theorem C2_signed_extract (arg : Char) (template : String) (t : R2OperandTemplate)
    (hmake : R2OperandTemplate.make arg template true = some t)
    (hlow : ∀ ch ∈ template.toList, Char.toLower ch = ch) :
    (∀ w : Nat, t.extract w
        = (if (t.rawValue w).testBit (t.bit_length - 1)
          then ((t.rawValue w : Int) - (2 : Int) ^ t.bit_length)
          else ((t.rawValue w : Int))))
    ∧ (∀ w : Nat, t.bit_length = 16 → t.rawValue w = 65535 → t.extract w = -1) := by
  obtain ⟨hva, hmem0, rfl⟩ := make_some_elim hmake
  have harg := valid_arg_ne_dash hva
  have hmem : arg ∈ template.toList := by rwa [map_id_of_mem hlow] at hmem0
  have hmain := fun w => extract_signed_eq arg template harg hlow hmem w
  refine ⟨hmain, fun w h16 hraw => ?_⟩
  rw [hmain w, hraw, h16]
  decide

theorem C2_signed_extract_witness :
    (R2OperandTemplate.make 'n' "001000nnnnnnnnnnnnnnnn01" true = some lbfOperand)
    ∧ (∀ ch ∈ "001000nnnnnnnnnnnnnnnn01".toList, Char.toLower ch = ch)
    ∧ lbfOperand.bit_length = 16
    ∧ lbfOperand.rawValue 0x3FFFC = 65535
    ∧ lbfOperand.extract 0x3FFFC = -1 :=
  ⟨by decide, by decide, by decide, by decide,
    (C2_signed_extract 'n' "001000nnnnnnnnnnnnnnnn01" lbfOperand (by decide) (by decide)).2
      0x3FFFC (by decide) (by decide)⟩


theorem hasArgAt_nil (arg : Char) (pos p : Nat) : hasArgAt arg [] pos p ↔ False := Iff.rfl

theorem hasArgAt_cons (arg ch : Char) (rest : List Char) (pos p : Nat) :
    hasArgAt arg (ch :: rest) pos p ↔ ((ch = arg ∧ p = pos) ∨ hasArgAt arg rest (pos + 1) p) :=
  Iff.rfl

theorem covers_nil (p : Nat) : covers [] p ↔ False := by simp [covers]

theorem covers_cons (r : BitRange) (rs : List BitRange) (p : Nat) :
    covers (r :: rs) p ↔ (r.insn_offset ≤ p ∧ p < r.insn_offset + r.length) ∨ covers rs p := by
  simp only [covers, List.mem_cons]
  constructor
  · rintro ⟨r2, rfl | hr2, hb⟩
    · exact Or.inl hb
    · exact Or.inr ⟨r2, hr2, hb⟩
  · rintro (hb | ⟨r2, hr2, hb⟩)
    · exact ⟨r, Or.inl rfl, hb⟩
    · exact ⟨r2, Or.inr hr2, hb⟩

theorem covers_pushBit (arg ch : Char) (pos : Nat) (acc : List BitRange) (p : Nat) :
    covers (pushBit arg ch pos acc) p ↔ covers acc p ∨ (ch = arg ∧ p = pos) := by
  cases acc with
  | nil =>
    rw [pushBit]
    by_cases h : ch = arg
    · rw [if_pos h, covers_cons, covers_nil]
      simp [h]
      omega
    · rw [if_neg h]
      simp [covers_nil, h]
  | cons r tail =>
    rw [pushBit]
    by_cases h : ch = arg
    · rw [if_pos h]
      by_cases h2 : r.insn_offset + r.length = pos
      · rw [if_pos h2, covers_cons, covers_cons]
        simp only [h, true_and]
        by_cases hC : covers tail p <;> simp [hC] <;> omega
      · rw [if_neg h2, covers_cons, covers_cons]
        simp only [h, true_and]
        by_cases hC : covers tail p <;> simp [hC] <;> omega
    · rw [if_neg h]
      simp [covers_cons, h]

theorem covers_scan (arg : Char) (tl : List Char) :
    ∀ (pos : Nat) (acc : List BitRange) (p : Nat),
      covers (scanRangesAux arg tl pos acc) p ↔ covers acc p ∨ hasArgAt arg tl pos p := by
  induction tl with
  | nil => intro pos acc p; simp [scanRangesAux, hasArgAt_nil]
  | cons ch rest ih =>
    intro pos acc p
    rw [scanRangesAux, ih, covers_pushBit, hasArgAt_cons]
    tauto

theorem stacked_nil (pos : Nat) : stacked [] pos ↔ True := Iff.rfl

theorem stacked_cons (r : BitRange) (tail : List BitRange) (pos : Nat) :
    stacked (r :: tail) pos ↔
      (r.insn_offset + r.length ≤ pos ∧ stacked tail r.insn_offset) := Iff.rfl

theorem stacked_mono : ∀ (l : List BitRange) (p q : Nat), p ≤ q → stacked l p → stacked l q := by
  intro l p q hpq hl
  cases l with
  | nil => trivial
  | cons r tail =>
    rw [stacked_cons] at hl ⊢
    exact ⟨le_trans hl.1 hpq, hl.2⟩

theorem stacked_pushBit (arg ch : Char) (pos : Nat) (acc : List BitRange)
    (h : stacked acc pos) : stacked (pushBit arg ch pos acc) (pos + 1) := by
  cases acc with
  | nil =>
    rw [pushBit]
    by_cases hch : ch = arg
    · rw [if_pos hch, stacked_cons]
      exact ⟨by simp only []; omega, trivial⟩
    · rw [if_neg hch]
      trivial
  | cons r tail =>
    rw [stacked_cons] at h
    rw [pushBit]
    by_cases hch : ch = arg
    · rw [if_pos hch]
      by_cases h2 : r.insn_offset + r.length = pos
      · rw [if_pos h2, stacked_cons]
        exact ⟨by simp only []; omega, h.2⟩
      · rw [if_neg h2, stacked_cons]
        refine ⟨by simp only []; omega, ?_⟩
        rw [stacked_cons]
        exact ⟨by simp only []; omega, h.2⟩
    · rw [if_neg hch]
      exact stacked_mono _ pos (pos + 1) (by omega) (stacked_cons r tail pos |>.mpr h)

theorem stacked_scan (arg : Char) (tl : List Char) :
    ∀ (pos : Nat) (acc : List BitRange), stacked acc pos →
      stacked (scanRangesAux arg tl pos acc) (pos + tl.length) := by
  induction tl with
  | nil =>
    intro pos acc h
    simpa [scanRangesAux] using h
  | cons ch rest ih =>
    intro pos acc h
    rw [scanRangesAux]
    have := ih (pos + 1) (pushBit arg ch pos acc) (stacked_pushBit arg ch pos acc h)
    have heq : pos + 1 + rest.length = pos + (ch :: rest).length := by
      rw [List.length_cons]
      omega
    rwa [heq] at this

theorem stacked_all : ∀ (l : List BitRange) (p : Nat), stacked l p →
    ∀ r ∈ l, r.insn_offset + r.length ≤ p := by
  intro l
  induction l with
  | nil => intro p h r hr; exact absurd hr (List.not_mem_nil r)
  | cons r0 tail ih =>
    intro p h r hr
    rw [stacked_cons] at h
    rcases List.mem_cons.mp hr with rfl | hr2
    · exact h.1
    · have := ih r0.insn_offset h.2 r hr2
      omega

theorem stacked_pairwise : ∀ (l : List BitRange) (p : Nat), stacked l p →
    l.Pairwise (fun a b => b.insn_offset + b.length ≤ a.insn_offset) := by
  intro l
  induction l with
  | nil => intro p h; exact List.Pairwise.nil
  | cons r tail ih =>
    intro p h
    rw [stacked_cons] at h
    exact List.Pairwise.cons (fun b hb => stacked_all tail r.insn_offset h.2 b hb)
      (ih r.insn_offset h.2)

theorem tiledTo_nil (v : Nat) : tiledTo [] v ↔ v = 0 := Iff.rfl

theorem tiledTo_cons (r : BitRange) (tail : List BitRange) (v : Nat) :
    tiledTo (r :: tail) v ↔ (v = r.value_offset + r.length ∧ tiledTo tail r.value_offset) :=
  Iff.rfl

theorem tiledFrom_nil (v : Nat) : tiledFrom [] v ↔ True := Iff.rfl

theorem tiledFrom_cons (r : BitRange) (tail : List BitRange) (v : Nat) :
    tiledFrom (r :: tail) v ↔ (r.value_offset = v ∧ tiledFrom tail (v + r.length)) := Iff.rfl

theorem valTop_pushBit (arg ch : Char) (pos : Nat) (acc : List BitRange) :
    valTop (pushBit arg ch pos acc) = if ch = arg then valTop acc + 1 else valTop acc := by
  cases acc with
  | nil =>
    rw [pushBit]
    by_cases h : ch = arg <;> simp [h, valTop]
  | cons r tail =>
    rw [pushBit]
    by_cases h : ch = arg
    · rw [if_pos h, if_pos h]
      by_cases h2 : r.insn_offset + r.length = pos <;> simp [h2, valTop] <;> omega
    · rw [if_neg h, if_neg h]

theorem tiledTo_pushBit (arg ch : Char) (pos : Nat) (acc : List BitRange)
    (h : tiledTo acc (valTop acc)) :
    tiledTo (pushBit arg ch pos acc) (valTop (pushBit arg ch pos acc)) := by
  cases acc with
  | nil =>
    rw [pushBit]
    by_cases hch : ch = arg
    · rw [if_pos hch, tiledTo_cons]
      exact ⟨rfl, rfl⟩
    · rw [if_neg hch]
      trivial
  | cons r tail =>
    rw [tiledTo_cons] at h
    rw [pushBit]
    by_cases hch : ch = arg
    · rw [if_pos hch]
      by_cases h2 : r.insn_offset + r.length = pos
      · rw [if_pos h2, tiledTo_cons]
        exact ⟨rfl, h.2⟩
      · rw [if_neg h2, tiledTo_cons]
        refine ⟨rfl, ?_⟩
        rw [tiledTo_cons]
        exact ⟨rfl, h.2⟩
    · rw [if_neg hch, tiledTo_cons]
      exact ⟨rfl, h.2⟩

theorem tiledTo_scan (arg : Char) (tl : List Char) :
    ∀ (pos : Nat) (acc : List BitRange), tiledTo acc (valTop acc) →
      tiledTo (scanRangesAux arg tl pos acc) (valTop (scanRangesAux arg tl pos acc)) := by
  induction tl with
  | nil => intro pos acc h; simpa [scanRangesAux] using h
  | cons ch rest ih =>
    intro pos acc h
    rw [scanRangesAux]
    exact ih (pos + 1) _ (tiledTo_pushBit arg ch pos acc h)

theorem valTop_scan (arg : Char) (tl : List Char) :
    ∀ (pos : Nat) (acc : List BitRange),
      valTop (scanRangesAux arg tl pos acc) = valTop acc + tl.count arg := by
  induction tl with
  | nil => intro pos acc; simp [scanRangesAux]
  | cons ch rest ih =>
    intro pos acc
    rw [scanRangesAux, ih, valTop_pushBit, List.count_cons]
    by_cases h : ch = arg <;> simp [h] <;> omega

theorem sumLen_append (l1 l2 : List BitRange) : sumLen (l1 ++ l2) = sumLen l1 + sumLen l2 := by
  simp [sumLen]

theorem tiledFrom_append (l1 l2 : List BitRange) :
    ∀ a : Nat, tiledFrom (l1 ++ l2) a ↔ tiledFrom l1 a ∧ tiledFrom l2 (a + sumLen l1) := by
  induction l1 with
  | nil => intro a; simp [tiledFrom_nil, sumLen]
  | cons r t ih =>
    intro a
    rw [List.cons_append, tiledFrom_cons, tiledFrom_cons, ih]
    have he : a + r.length + sumLen t = a + sumLen (r :: t) := by
      simp [sumLen]
      omega
    rw [he]
    tauto

theorem tiledTo_to_tiledFrom : ∀ (l : List BitRange) (v : Nat), tiledTo l v →
    tiledFrom l.reverse 0 ∧ sumLen l.reverse = v := by
  intro l
  induction l with
  | nil =>
    intro v h
    rw [tiledTo_nil] at h
    subst h
    exact ⟨trivial, rfl⟩
  | cons r tail ih =>
    intro v h
    rw [tiledTo_cons] at h
    obtain ⟨hv, htail⟩ := h
    obtain ⟨ih1, ih2⟩ := ih r.value_offset htail
    rw [List.reverse_cons]
    constructor
    · rw [tiledFrom_append]
      refine ⟨ih1, ?_⟩
      rw [tiledFrom_cons]
      exact ⟨by omega, trivial⟩
    · rw [sumLen_append]
      have h1 : sumLen [r] = r.length := by simp [sumLen]
      omega

theorem hasArgAt_iff (arg : Char) : ∀ (l : List Char) (pos p : Nat),
    hasArgAt arg l pos p ↔ (pos ≤ p ∧ p - pos < l.length ∧ l.getD (p - pos) '-' = arg) := by
  intro l
  induction l with
  | nil =>
    intro pos p
    rw [hasArgAt_nil]
    simp only [List.length_nil]
    constructor
    · intro h
      exact absurd h id
    · rintro ⟨h1, h2, h3⟩
      omega
  | cons ch rest ih =>
    intro pos p
    rw [hasArgAt_cons, ih]
    rcases Nat.lt_trichotomy p pos with hlt | heq | hgt
    · constructor
      · rintro (⟨h1, h2⟩ | ⟨h1, h2, h3⟩) <;> omega
      · rintro ⟨h1, h2, h3⟩
        omega
    · subst heq
      have h0 : p - p = 0 := by omega
      constructor
      · rintro (⟨h1, h2⟩ | ⟨h1, h2, h3⟩)
        · refine ⟨le_refl p, by simp, ?_⟩
          rw [h0, List.getD_cons_zero]
          exact h1
        · omega
      · rintro ⟨h1, h2, h3⟩
        rw [h0, List.getD_cons_zero] at h3
        exact Or.inl ⟨h3, rfl⟩
    · have hsub : p - pos = (p - (pos + 1)) + 1 := by omega
      constructor
      · rintro (⟨h1, h2⟩ | ⟨h1, h2, h3⟩)
        · omega
        · refine ⟨by omega, ?_, ?_⟩
          · rw [List.length_cons]
            omega
          · rw [hsub, List.getD_cons_succ]
            exact h3
      · rintro ⟨h1, h2, h3⟩
        rw [hsub, List.getD_cons_succ] at h3
        rw [List.length_cons] at h2
        exact Or.inr ⟨by omega, by omega, h3⟩

theorem hasArgAt_map_norm (arg : Char) (harg : arg ≠ '-') (l : List Char) :
    ∀ pos p, hasArgAt arg (l.map (fun ch => if ch = arg then arg else '-')) pos p
      ↔ hasArgAt arg l pos p := by
  induction l with
  | nil => intro pos p; rw [List.map_nil]
  | cons ch rest ih =>
    intro pos p
    rw [List.map_cons, hasArgAt_cons, hasArgAt_cons, ih]
    by_cases h : ch = arg
    · rw [if_pos h, h]
    · rw [if_neg h]
      have h2 : ¬ ('-' = arg) := fun he => harg he.symm
      simp [h, h2]

theorem covers_reverse (l : List BitRange) (p : Nat) : covers l.reverse p ↔ covers l p := by
  simp [covers, List.mem_reverse]

theorem ranges_build (arg : Char) (template : String) (s : Bool) :
    (R2OperandTemplate.build arg template s).ranges
      = (scanRangesAux arg (((template.toList.map Char.toLower).map
          (fun ch => if ch = arg then arg else '-')).reverse) 0 []).reverse := rfl

/-- Claim C3: for every operand template built for letter c, the instruction
bit intervals of its BitRanges are pairwise disjoint, in increasing order of
significance, their union is exactly the set of bit positions where the
template string holds the letter, and the value offsets tile the interval
from 0 to bit_length contiguously in order of significance. -/
theorem C3_partition (arg : Char) (template : String) (s : Bool) (t : R2OperandTemplate)
    (hmake : R2OperandTemplate.make arg template s = some t)
    (hlow : ∀ ch ∈ template.toList, Char.toLower ch = ch) :
    List.Pairwise (fun r1 r2 => r1.insn_offset + r1.length ≤ r2.insn_offset) t.ranges
    ∧ (∀ p : Nat, covers t.ranges p ↔
        (p < template.toList.length ∧ template.toList.reverse.getD p '-' = arg))
    ∧ tiledFrom t.ranges 0
    ∧ sumLen t.ranges = t.bit_length := by
  obtain ⟨hva, hmem0, rfl⟩ := make_some_elim hmake
  have harg := valid_arg_ne_dash hva
  have hr := ranges_build arg template s
  have hnorm : ((template.toList.map Char.toLower).map
      (fun ch => if ch = arg then arg else '-'))
      = template.toList.map (fun ch => if ch = arg then arg else '-') := by
    rw [map_id_of_mem hlow]
  rw [hnorm] at hr
  refine ⟨?_, ?_, ?_, ?_⟩
  · rw [hr]
    exact List.pairwise_reverse.mpr
      (stacked_pairwise _ _ (stacked_scan arg _ 0 [] trivial))
  · intro p
    rw [hr, covers_reverse, covers_scan, covers_nil, ← List.map_reverse,
      hasArgAt_map_norm arg harg, hasArgAt_iff]
    simp only [false_or, Nat.sub_zero, List.length_reverse, Nat.zero_le, true_and]
  · rw [hr]
    exact (tiledTo_to_tiledFrom _ _ (tiledTo_scan arg _ 0 [] rfl)).1
  · rw [hr, bit_length_build]
    have h1 := (tiledTo_to_tiledFrom
      (scanRangesAux arg
        ((template.toList.map (fun ch => if ch = arg then arg else '-')).reverse) 0 [])
      (valTop (scanRangesAux arg
        ((template.toList.map (fun ch => if ch = arg then arg else '-')).reverse) 0 []))
      (tiledTo_scan arg
        ((template.toList.map (fun ch => if ch = arg then arg else '-')).reverse) 0 [] rfl)).2
    rw [h1, valTop_scan]
    simp only [valTop, Nat.zero_add]
    rw [List.count_reverse, count_map_norm arg harg]

theorem C3_partition_witness :
    (R2OperandTemplate.make 'k' "kk0kk110" false = some kSplitOperand)
    ∧ (∀ ch ∈ "kk0kk110".toList, Char.toLower ch = ch)
    ∧ List.Pairwise (fun r1 r2 => r1.insn_offset + r1.length ≤ r2.insn_offset)
        kSplitOperand.ranges
    ∧ (covers kSplitOperand.ranges 3 ↔
        (3 < "kk0kk110".toList.length ∧ "kk0kk110".toList.reverse.getD 3 '-' = 'k'))
    ∧ tiledFrom kSplitOperand.ranges 0
    ∧ sumLen kSplitOperand.ranges = kSplitOperand.bit_length :=
  ⟨by decide, by decide,
    (C3_partition 'k' "kk0kk110" false kSplitOperand (by decide) (by decide)).1,
    (C3_partition 'k' "kk0kk110" false kSplitOperand (by decide) (by decide)).2.1 3,
    (C3_partition 'k' "kk0kk110" false kSplitOperand (by decide) (by decide)).2.2.1,
    (C3_partition 'k' "kk0kk110" false kSplitOperand (by decide) (by decide)).2.2.2⟩

theorem length_idx_cases (b : Nat) (hb : b < 256) :
    INSN_LENGTH_IDX.getD (b >>> 5) 0
      = (if b >>> 5 ≤ 3 then 3 else if b >>> 5 = 4 then 2 else 4) := by
  have h : b >>> 5 < 8 := by
    rw [Nat.shiftRight_eq_div_pow]
    omega
  set k := b >>> 5 with hk
  interval_cases k <;> rfl

theorem length_idx_le_four (b : Nat) (hb : b < 256) :
    INSN_LENGTH_IDX.getD (b >>> 5) 0 ≤ 4 := by
  have h : b >>> 5 < 8 := by
    rw [Nat.shiftRight_eq_div_pow]
    omega
  set k := b >>> 5 with hk
  interval_cases k <;> decide

theorem length_idx_pos (b : Nat) (hb : b < 256) :
    0 < INSN_LENGTH_IDX.getD (b >>> 5) 0 := by
  have h : b >>> 5 < 8 := by
    rw [Nat.shiftRight_eq_div_pow]
    omega
  set k := b >>> 5 with hk
  interval_cases k <;> decide

theorem head_mem_of_drop {fbuf rest : List Nat} {offset b : Nat}
    (hd : fbuf.drop offset = b :: rest) : b ∈ fbuf := by
  have h1 : b ∈ fbuf.drop offset := by
    rw [hd]
    exact List.mem_cons_self b rest
  exact List.mem_of_mem_drop h1

theorem find?_spec {p : R2InsnTemplate → Bool} :
    ∀ {l : List R2InsnTemplate} {t : R2InsnTemplate}, l.find? p = some t →
      p t = true ∧ ∃ i : Nat, ∃ hi : i < l.length, l.get ⟨i, hi⟩ = t
        ∧ ∀ j (hj : j < i) (hjl : j < l.length), p (l.get ⟨j, hjl⟩) = false := by
  intro l
  induction l with
  | nil => intro t h; simp [List.find?] at h
  | cons a rest ih =>
    intro t h
    by_cases hpa : p a = true
    · rw [List.find?_cons_of_pos _ hpa] at h
      obtain rfl : a = t := Option.some.inj h
      refine ⟨hpa, 0, by simp, rfl, ?_⟩
      intro j hj hjl
      omega
    · have hpa2 : p a = false := by
        cases hval : p a
        · rfl
        · exact absurd hval hpa
      rw [List.find?_cons_of_neg _ (by rw [hpa2]; simp)] at h
      obtain ⟨hpt, i, hi, hget, hprev⟩ := ih h
      refine ⟨hpt, i + 1, by simp [List.length_cons]; omega, by simpa using hget, ?_⟩
      intro j hj hjl
      cases j with
      | zero => simpa using hpa2
      | succ j2 =>
        have hj2 : j2 < i := by omega
        have hjl2 : j2 < rest.length := by
          rw [List.length_cons] at hjl
          omega
        simpa using hprev j2 hj2 hjl2

/-- Claim C4: dasm_at classifies the byte length from the top three bits of
the first byte through the fixed table (values 0-3 give 3 bytes, value 4
gives 2 bytes, values 5-7 give 4 bytes), and any emitted instruction carries
exactly that classified length. -/
theorem C4_length_classification (fbuf : List Nat) (offset : Nat) (insn : R2Insn)
    (hb : ∀ x ∈ fbuf, x < 256) (h : dasm_at fbuf offset = .ok insn) :
    ∃ b, (fbuf.drop offset).head? = some b
      ∧ insn.length = INSN_LENGTH_IDX.getD (b >>> 5) 0
      ∧ insn.length = (if b >>> 5 ≤ 3 then 3 else if b >>> 5 = 4 then 2 else 4) := by
  unfold dasm_at FileBuffer.read at h
  cases hd : fbuf.drop offset with
  | nil =>
    rw [hd] at h
    exact absurd h (by simp [dasm_core])
  | cons b rest =>
    rw [hd, List.take_succ_cons, dasm_core] at h
    have hb256 : b < 256 := hb b (head_mem_of_drop hd)
    refine ⟨b, rfl, ?_⟩
    have hlen : insn.length = INSN_LENGTH_IDX.getD (b >>> 5) 0 := by
      by_cases hif : (((b :: rest.take 3).take (INSN_LENGTH_IDX.getD (b >>> 5) 0)).length
          ≠ INSN_LENGTH_IDX.getD (b >>> 5) 0)
      · rw [if_pos hif] at h
        exact absurd h (by simp)
      · rw [if_neg hif] at h
        cases hfind : INSNS.find? (fun templ =>
            templ.length == INSN_LENGTH_IDX.getD (b >>> 5) 0 &&
            templ.matchWord
              (bytesToBE ((b :: rest.take 3).take (INSN_LENGTH_IDX.getD (b >>> 5) 0)))) with
        | none =>
          rw [hfind, dasm_finish] at h
          have := Except.ok.inj h
          rw [← this]
        | some templ =>
          rw [hfind, dasm_finish] at h
          have hinsn := Except.ok.inj h
          have hp := (find?_spec hfind).1
          simp only [Bool.and_eq_true, beq_iff_eq] at hp
          rw [← hinsn]
          exact hp.1
    exact ⟨hlen, by rw [hlen, length_idx_cases b hb256]⟩

/-- Claim C9: when fewer bytes remain before the end of the source than the
classified instruction length requires (including an empty read), dasm_at
surfaces a failure to the caller instead of returning a truncated
instruction. -/
theorem C9_truncated (fbuf : List Nat) (offset : Nat)
    (hb : ∀ x ∈ fbuf, x < 256)
    (hshort : ∀ b, (fbuf.drop offset).head? = some b →
        fbuf.length < offset + INSN_LENGTH_IDX.getD (b >>> 5) 0) :
    ∃ msg, dasm_at fbuf offset = .error msg := by
  unfold dasm_at FileBuffer.read
  cases hd : fbuf.drop offset with
  | nil => exact ⟨_, rfl⟩
  | cons b rest =>
    have hs := hshort b (by rw [hd]; rfl)
    have hlen : fbuf.length - offset = rest.length + 1 := by
      have h2 := congrArg List.length hd
      rw [List.length_drop, List.length_cons] at h2
      omega
    have hoff : offset < fbuf.length := by omega
    rw [List.take_succ_cons, dasm_core]
    have hcond : ((b :: rest.take 3).take (INSN_LENGTH_IDX.getD (b >>> 5) 0)).length
        ≠ INSN_LENGTH_IDX.getD (b >>> 5) 0 := by
      rw [List.length_take, List.length_cons, List.length_take]
      omega
    rw [if_pos hcond]
    exact ⟨_, rfl⟩

theorem C9_truncated_witness :
    (∀ x ∈ [0xE0], x < 256)
    ∧ (∀ b : Nat, (List.drop 0 [0xE0]).head? = some b →
        List.length [0xE0] < 0 + INSN_LENGTH_IDX.getD (b >>> 5) 0)
    ∧ ∃ msg, dasm_at [0xE0] 0 = .error msg :=
  ⟨by decide, by decide,
    C9_truncated [0xE0] 0 (by decide) (by decide)⟩

/-- Claim C6: a full-length word matched by no template of its classified
length decodes without failure to an instruction that carries the classified
length, the raw consumed bytes, no template and no operand map, and that
instruction renders as the fixed unknown marker. -/
theorem C6_unknown (fbuf : List Nat) (offset b : Nat)
    (hb : ∀ x ∈ fbuf, x < 256)
    (hhead : (fbuf.drop offset).head? = some b)
    (hlen : offset + INSN_LENGTH_IDX.getD (b >>> 5) 0 ≤ fbuf.length)
    (hnomatch : ∀ t ∈ INSNS, t.length = INSN_LENGTH_IDX.getD (b >>> 5) 0 →
        t.matchWord (bytesToBE ((fbuf.drop offset).take (INSN_LENGTH_IDX.getD (b >>> 5) 0)))
          = false) :
    dasm_at fbuf offset = .ok
      { length := INSN_LENGTH_IDX.getD (b >>> 5) 0,
        bits := bytesToBE ((fbuf.drop offset).take (INSN_LENGTH_IDX.getD (b >>> 5) 0)),
        template := none, args := none,
        raw := (fbuf.drop offset).take (INSN_LENGTH_IDX.getD (b >>> 5) 0) }
    ∧ R2Insn.toStr
      { length := INSN_LENGTH_IDX.getD (b >>> 5) 0,
        bits := bytesToBE ((fbuf.drop offset).take (INSN_LENGTH_IDX.getD (b >>> 5) 0)),
        template := none, args := none,
        raw := (fbuf.drop offset).take (INSN_LENGTH_IDX.getD (b >>> 5) 0) }
      = some "*unk*" := by
  unfold dasm_at FileBuffer.read
  cases hd : fbuf.drop offset with
  | nil =>
    rw [hd] at hhead
    exact absurd hhead (by simp)
  | cons b2 rest =>
    rw [hd] at hhead hnomatch
    rw [List.head?_cons] at hhead
    obtain rfl : b2 = b := Option.some.inj hhead
    have hb256 : b2 < 256 := hb b2 (head_mem_of_drop hd)
    have hle4 := length_idx_le_four b2 hb256
    have hlen2 : fbuf.length - offset = rest.length + 1 := by
      have h2 := congrArg List.length hd
      rw [List.length_drop, List.length_cons] at h2
      omega
    have htk : (b2 :: rest.take 3).take (INSN_LENGTH_IDX.getD (b2 >>> 5) 0)
        = (b2 :: rest).take (INSN_LENGTH_IDX.getD (b2 >>> 5) 0) := by
      rw [← List.take_succ_cons, List.take_take, Nat.min_eq_left hle4]
    rw [List.take_succ_cons, dasm_core, htk]
    have hcond : ¬ (((b2 :: rest).take (INSN_LENGTH_IDX.getD (b2 >>> 5) 0)).length
        ≠ INSN_LENGTH_IDX.getD (b2 >>> 5) 0) := by
      rw [List.length_take, List.length_cons]
      omega
    rw [if_neg hcond]
    have hfind : INSNS.find? (fun templ =>
        templ.length == INSN_LENGTH_IDX.getD (b2 >>> 5) 0 &&
        templ.matchWord (bytesToBE ((b2 :: rest).take (INSN_LENGTH_IDX.getD (b2 >>> 5) 0))))
        = none := by
      rw [List.find?_eq_none]
      intro x hx
      simp only [Bool.and_eq_true, beq_iff_eq, not_and]
      intro hxlen
      rw [hnomatch x hx hxlen]
      simp
    rw [hfind, dasm_finish]
    exact ⟨rfl, rfl⟩

theorem C6_unknown_witness :
    (∀ x ∈ [0x80, 0x00], x < 256)
    ∧ (List.drop 0 [0x80, 0x00]).head? = some 0x80
    ∧ 0 + INSN_LENGTH_IDX.getD (0x80 >>> 5) 0 ≤ List.length [0x80, 0x00]
    ∧ (∀ t ∈ INSNS, t.length = INSN_LENGTH_IDX.getD (0x80 >>> 5) 0 →
        t.matchWord (bytesToBE ((List.drop 0 [0x80, 0x00]).take
          (INSN_LENGTH_IDX.getD (0x80 >>> 5) 0))) = false)
    ∧ dasm_at [0x80, 0x00] 0 = .ok
      { length := INSN_LENGTH_IDX.getD (0x80 >>> 5) 0,
        bits := bytesToBE ((List.drop 0 [0x80, 0x00]).take
          (INSN_LENGTH_IDX.getD (0x80 >>> 5) 0)),
        template := none, args := none,
        raw := (List.drop 0 [0x80, 0x00]).take (INSN_LENGTH_IDX.getD (0x80 >>> 5) 0) }
    ∧ R2Insn.toStr
      { length := INSN_LENGTH_IDX.getD (0x80 >>> 5) 0,
        bits := bytesToBE ((List.drop 0 [0x80, 0x00]).take
          (INSN_LENGTH_IDX.getD (0x80 >>> 5) 0)),
        template := none, args := none,
        raw := (List.drop 0 [0x80, 0x00]).take (INSN_LENGTH_IDX.getD (0x80 >>> 5) 0) }
      = some "*unk*" := by
  refine ⟨by decide, by decide, by decide, by decide, ?_, ?_⟩
  · exact (C6_unknown [0x80, 0x00] 0 0x80 (by decide) (by decide) (by decide) (by decide)).1
  · exact (C6_unknown [0x80, 0x00] 0 0x80 (by decide) (by decide) (by decide) (by decide)).2

theorem C4_length_classification_witness :
    (∀ x ∈ [0x80, 0x01], x < 256)
    ∧ dasm_at [0x80, 0x01] 0 = .ok lnopInsn
    ∧ ∃ b, (List.drop 0 [0x80, 0x01]).head? = some b
      ∧ lnopInsn.length = INSN_LENGTH_IDX.getD (b >>> 5) 0
      ∧ lnopInsn.length = (if b >>> 5 ≤ 3 then 3 else if b >>> 5 = 4 then 2 else 4) :=
  ⟨by decide, by rfl,
    C4_length_classification [0x80, 0x01] 0 lnopInsn (by decide) (by rfl)⟩

/-- Claim C5: a recognized decode returns the parse of the first INSNS
template of the classified length that matches the word: the template found
is in INSNS, has the length of the instruction, matches its word, and every
earlier-declared template of the same length fails to match, so of two
overlapping same-length templates the earlier-declared one wins. -/
theorem C5_first_match (fbuf : List Nat) (offset : Nat) (insn : R2Insn)
    (t : R2InsnTemplate)
    (hb : ∀ x ∈ fbuf, x < 256)
    (h : dasm_at fbuf offset = .ok insn)
    (ht : insn.template = some t) :
    t ∈ INSNS ∧ t.length = insn.length ∧ t.matchWord insn.bits = true
    ∧ ∃ i : Nat, ∃ hi : i < INSNS.length, INSNS.get ⟨i, hi⟩ = t
      ∧ ∀ j (hj : j < i) (hjl : j < INSNS.length),
          (INSNS.get ⟨j, hjl⟩).length = insn.length →
            (INSNS.get ⟨j, hjl⟩).matchWord insn.bits = false := by
  unfold dasm_at FileBuffer.read at h
  cases hd : fbuf.drop offset with
  | nil =>
    rw [hd] at h
    exact absurd h (by simp [dasm_core])
  | cons b rest =>
    rw [hd, List.take_succ_cons, dasm_core] at h
    by_cases hif : (((b :: rest.take 3).take (INSN_LENGTH_IDX.getD (b >>> 5) 0)).length
        ≠ INSN_LENGTH_IDX.getD (b >>> 5) 0)
    · rw [if_pos hif] at h
      exact absurd h (by simp)
    · rw [if_neg hif] at h
      cases hfind : INSNS.find? (fun templ =>
          templ.length == INSN_LENGTH_IDX.getD (b >>> 5) 0 &&
          templ.matchWord
            (bytesToBE ((b :: rest.take 3).take (INSN_LENGTH_IDX.getD (b >>> 5) 0)))) with
      | none =>
        rw [hfind, dasm_finish] at h
        have hinsn := Except.ok.inj h
        rw [← hinsn] at ht
        exact absurd ht (by simp)
      | some templ =>
        rw [hfind, dasm_finish] at h
        have hinsn := Except.ok.inj h
        rw [← hinsn] at ht
        obtain rfl : templ = t := Option.some.inj ht
        obtain ⟨hp, i, hi, hget, hprev⟩ := find?_spec hfind
        simp only [Bool.and_eq_true, beq_iff_eq] at hp
        have hblen : insn.length = templ.length := by
          rw [← hinsn]
          rfl
        have hbits : insn.bits
            = bytesToBE ((b :: rest.take 3).take (INSN_LENGTH_IDX.getD (b >>> 5) 0)) := by
          rw [← hinsn]
          rfl
        refine ⟨List.mem_of_find?_eq_some hfind, by rw [hblen], ?_, i, hi, hget, ?_⟩
        · rw [hbits]
          exact hp.2
        · intro j hj hjl hlenj
          have hpj := hprev j hj hjl
          rw [hbits]
          by_cases hm : (INSNS.get ⟨j, hjl⟩).matchWord
              (bytesToBE ((b :: rest.take 3).take (INSN_LENGTH_IDX.getD (b >>> 5) 0))) = true
          · exfalso
            have hL : (INSNS.get ⟨j, hjl⟩).length = INSN_LENGTH_IDX.getD (b >>> 5) 0 := by
              rw [hlenj, hblen, hp.1]
            rw [hL, hm] at hpj
            simp at hpj
          · cases hval : (INSNS.get ⟨j, hjl⟩).matchWord
                (bytesToBE ((b :: rest.take 3).take (INSN_LENGTH_IDX.getD (b >>> 5) 0)))
            · rfl
            · exact absurd hval hm

theorem C5_first_match_witness :
    (∀ x ∈ [0x80, 0x01], x < 256)
    ∧ dasm_at [0x80, 0x01] 0 = .ok lnopInsn
    ∧ lnopInsn.template = some lnopTemplate
    ∧ (lnopTemplate ∈ INSNS ∧ lnopTemplate.length = lnopInsn.length
      ∧ lnopTemplate.matchWord lnopInsn.bits = true
      ∧ ∃ i : Nat, ∃ hi : i < INSNS.length, INSNS.get ⟨i, hi⟩ = lnopTemplate
        ∧ ∀ j (hj : j < i) (hjl : j < INSNS.length),
            (INSNS.get ⟨j, hjl⟩).length = lnopInsn.length →
              (INSNS.get ⟨j, hjl⟩).matchWord lnopInsn.bits = false) :=
  ⟨by decide, by rfl, by decide,
    C5_first_match [0x80, 0x01] 0 lnopInsn lnopTemplate (by decide) (by rfl) (by decide)⟩

theorem mem_templateArgs {ch : Char} {bt : List Char} :
    ch ∈ templateArgs bt ↔ ch ∈ bt ∧ ch ≠ '0' ∧ ch ≠ '1' := by
  unfold templateArgs
  rw [List.mem_dedup, List.mem_filter]
  simp

/-- Claim C7: R2InsnTemplate construction succeeds only when the template
string is 8 times the declared byte length, every non-0/1 character of the
(lowercased) template is in the operand alphabet, and every declared signed
letter is one of the operand letters of the template; a violation of any of the
three makes construction fail before any decoding. -/
theorem C7_construction (mnemonic : String) (length : Nat) (bits_template : String)
    (args_format : Option String) (signed : Option (List Char)) (t : R2InsnTemplate)
    (h : R2InsnTemplate.make mnemonic length bits_template args_format signed = some t) :
    bits_template.length = length * 8
    ∧ (∀ ch ∈ bits_template.toList.map Char.toLower, ch ≠ '0' → ch ≠ '1' → ch ∈ VALID_ARGS)
    ∧ (∀ c ∈ signed.getD [], c ∈ templateArgs (bits_template.toList.map Char.toLower)) := by
  unfold R2InsnTemplate.make at h
  by_cases h1 : mnemonic = ""
  · rw [if_pos h1] at h
    exact absurd h (by simp)
  · rw [if_neg h1] at h
    by_cases h2 : ¬ 0 < length
    · rw [if_pos h2] at h
      exact absurd h (by simp)
    · rw [if_neg h2] at h
      by_cases h3 : bits_template = ""
      · rw [if_pos h3] at h
        exact absurd h (by simp)
      · rw [if_neg h3] at h
        by_cases h4 : ¬ length * 8 = bits_template.length
        · rw [if_pos h4] at h
          exact absurd h (by simp)
        · rw [if_neg h4] at h
          by_cases h5 : args_format = some ""
          · rw [if_pos h5] at h
            exact absurd h (by simp)
          · rw [if_neg h5] at h
            by_cases h6 : ¬ (∀ a ∈ templateArgs (bits_template.toList.map Char.toLower),
                a ∈ VALID_ARGS)
            · rw [if_pos h6] at h
              exact absurd h (by simp)
            · rw [if_neg h6] at h
              by_cases h7 : ¬ (∀ c ∈ signed.getD [],
                  c ∈ templateArgs (bits_template.toList.map Char.toLower))
              · rw [if_pos h7] at h
                exact absurd h (by simp)
              · rw [if_neg h7] at h
                push_neg at h4 h6 h7
                refine ⟨h4.symm, ?_, h7⟩
                intro ch hch hch0 hch1
                exact h6 ch (mem_templateArgs.mpr ⟨hch, hch0, hch1⟩)

theorem C7_construction_witness :
    (R2InsnTemplate.make "l.addi" 2 "100111dddddkkkkk" (some "r%d, r%d, %k")
        (some ['k']) = some laddiTemplate)
    ∧ ("100111dddddkkkkk".length = 2 * 8
      ∧ (∀ ch ∈ "100111dddddkkkkk".toList.map Char.toLower,
          ch ≠ '0' → ch ≠ '1' → ch ∈ VALID_ARGS)
      ∧ (∀ c ∈ (some ['k'] : Option (List Char)).getD [],
          c ∈ templateArgs ("100111dddddkkkkk".toList.map Char.toLower))) :=
  ⟨by decide,
    C7_construction "l.addi" 2 "100111dddddkkkkk" (some "r%d, r%d, %k") (some ['k'])
      laddiTemplate (by decide)⟩

theorem match2_map (s : String) (o : Option (List Char)) :
    (match (some s : Option String), o with
      | some s2, some r => some (s2.toList ++ r)
      | _, _ => none) = o.map (fun r => s.toList ++ r) := by
  cases o <;> rfl

theorem match2_none (o : Option (List Char)) :
    (match (none : Option String), o with
      | some s2, some r => some (s2.toList ++ r)
      | _, _ => none) = none := by
  cases o <;> rfl

/-- Claim C8: rendering substitutes the format string placeholders: a
register-tagged placeholder renders the letter r followed by the operand
value in decimal and requires the value to be non-negative (a negative value
fails the assertion), a plain placeholder renders the value in Python #x
hexadecimal, which keeps a leading minus sign for negative values, and the
escape sequence renders a single percent character; the l.addi word with both
fields all ones renders to the exact expected line. -/
theorem C8_render (insn : R2Insn) (m : List (Char × Int)) (c : Char) (v : Int)
    (rest : List Char)
    (hargs : insn.args = some m) (hc : c ∈ VALID_ARGS) (hcp : c ≠ '%')
    (hv : m.lookup c = some v) :
    (0 ≤ v → insn.substArgsList ('r' :: '%' :: c :: rest)
      = (insn.substArgsList rest).map (fun r => ("r" ++ natDecStr v.toNat).toList ++ r))
    ∧ (v < 0 → insn.substArgsList ('r' :: '%' :: c :: rest) = none)
    ∧ insn.substArgsList ('%' :: c :: rest)
      = (insn.substArgsList rest).map (fun r => (pyHexString v).toList ++ r)
    ∧ insn.substArgsList ('%' :: '%' :: rest)
      = (insn.substArgsList rest).map (fun r => '%' :: r)
    ∧ (v < 0 → pyHexString v = "-0x" ++ natHexStr (-v).toNat)
    ∧ (0 ≤ v → pyHexString v = "0x" ++ natHexStr v.toNat)
    ∧ R2Insn.toStr laddiExample = some "l.addi       r31, r31, -0x1" := by
  have hreg : insn.arg_subst true c
      = (if 0 ≤ v then some ("r" ++ natDecStr v.toNat) else none) := by
    simp [R2Insn.arg_subst, hcp, hc, hargs, hv]
  have hplain : insn.arg_subst false c = some (pyHexString v) := by
    simp [R2Insn.arg_subst, hcp, hc, hargs, hv]
  refine ⟨?_, ?_, ?_, ?_, ?_, ?_, ?_⟩
  · intro h0
    rw [show insn.substArgsList ('r' :: '%' :: c :: rest)
        = (match insn.arg_subst true c, insn.substArgsList rest with
          | some s2, some r => some (s2.toList ++ r)
          | _, _ => none) from rfl]
    rw [hreg, if_pos h0, match2_map]
  · intro h0
    have hneg : ¬ (0 ≤ v) := by omega
    have hsub : insn.arg_subst true c = none := by rw [hreg, if_neg hneg]
    rw [show insn.substArgsList ('r' :: '%' :: c :: rest)
        = (match insn.arg_subst true c, insn.substArgsList rest with
          | some s2, some r => some (s2.toList ++ r)
          | _, _ => none) from rfl, hsub]
  · rw [show insn.substArgsList ('%' :: c :: rest)
        = (match insn.arg_subst false c, insn.substArgsList rest with
          | some s2, some r => some (s2.toList ++ r)
          | _, _ => none) from rfl]
    rw [hplain, match2_map]
  · rw [show insn.substArgsList ('%' :: '%' :: rest)
        = (match insn.arg_subst false '%', insn.substArgsList rest with
          | some s2, some r => some (s2.toList ++ r)
          | _, _ => none) from rfl]
    rw [show insn.arg_subst false '%' = some "%" from rfl, match2_map]
    cases insn.substArgsList rest <;> rfl
  · intro h0
    unfold pyHexString
    rw [if_pos h0]
  · intro h0
    unfold pyHexString
    rw [if_neg (by omega)]
  · decide

theorem C8_render_witness :
    (laddiExample.args = some [('d', 31), ('k', -1)])
    ∧ ('d' ∈ VALID_ARGS)
    ∧ ([(('d' : Char), (31 : Int)), ('k', -1)].lookup 'd' = some 31)
    ∧ laddiExample.substArgsList ('r' :: '%' :: 'd' :: [])
      = (laddiExample.substArgsList []).map
          (fun r => ("r" ++ natDecStr (31 : Int).toNat).toList ++ r)
    ∧ R2Insn.toStr laddiExample = some "l.addi       r31, r31, -0x1" :=
  ⟨by decide, by decide, by decide,
    (C8_render laddiExample [('d', 31), ('k', -1)] 'd' 31 []
      (by decide) (by decide) (by decide) (by decide)).1 (by decide),
    (C8_render laddiExample [('d', 31), ('k', -1)] 'd' 31 []
      (by decide) (by decide) (by decide) (by decide)).2.2.2.2.2.2⟩

theorem formatPlaceholders_reg (c : Char) (rest : List Char) :
    formatPlaceholders ('r' :: '%' :: c :: rest) = (true, c) :: formatPlaceholders rest := rfl

theorem formatPlaceholders_plain (c : Char) (rest : List Char) :
    formatPlaceholders ('%' :: c :: rest) = (false, c) :: formatPlaceholders rest := rfl

theorem formatPlaceholders_cons_other (ch : Char) (rest : List Char)
    (h1 : ¬(ch = 'r' ∧ ∃ c r2, rest = '%' :: c :: r2))
    (h2 : ¬(ch = '%' ∧ ∃ c r2, rest = c :: r2)) :
    formatPlaceholders (ch :: rest) = formatPlaceholders rest := by
  rw [formatPlaceholders.eq_def]
  split
  · simp_all
  · exfalso
    apply h1
    simp_all
  · exfalso
    apply h2
    simp_all
  · simp_all

theorem substArgsList_cons_other (insn : R2Insn) (ch : Char) (rest : List Char)
    (h1 : ¬(ch = 'r' ∧ ∃ c r2, rest = '%' :: c :: r2))
    (h2 : ¬(ch = '%' ∧ ∃ c r2, rest = c :: r2)) :
    insn.substArgsList (ch :: rest)
      = match insn.substArgsList rest with
        | some r => some (ch :: r)
        | none => none := by
  rw [R2Insn.substArgsList.eq_def]
  split
  · simp_all
  · exfalso
    apply h1
    simp_all
  · exfalso
    apply h2
    simp_all
  · simp_all

theorem substArgsList_isSome (insn : R2Insn) :
    ∀ (n : Nat) (l : List Char), l.length ≤ n →
      (∀ p ∈ formatPlaceholders l, (insn.arg_subst p.1 p.2).isSome = true) →
      (insn.substArgsList l).isSome = true := by
  intro n
  induction n with
  | zero =>
    intro l hl hp
    obtain rfl : l = [] := List.length_eq_zero.mp (by omega)
    rfl
  | succ n ih =>
    intro l hl hp
    cases l with
    | nil => rfl
    | cons ch rest =>
      rw [List.length_cons] at hl
      by_cases h1 : ch = 'r' ∧ ∃ c r2, rest = '%' :: c :: r2
      · obtain ⟨rfl, c, r2, rfl⟩ := h1
        have hpc : (insn.arg_subst true c).isSome = true :=
          hp (true, c) (by rw [formatPlaceholders_reg]; exact List.mem_cons_self _ _)
        have hrec : (insn.substArgsList r2).isSome = true := by
          apply ih r2 ?_ ?_
          · simp only [List.length_cons] at hl
            omega
          · intro p hp2
            apply hp p
            rw [formatPlaceholders_reg]
            exact List.mem_cons_of_mem _ hp2
        rw [show insn.substArgsList ('r' :: '%' :: c :: r2)
            = (match insn.arg_subst true c, insn.substArgsList r2 with
              | some s2, some r => some (s2.toList ++ r)
              | _, _ => none) from rfl]
        cases hs : insn.arg_subst true c with
        | none =>
          rw [hs] at hpc
          exact absurd hpc (by simp)
        | some s =>
          cases hr : insn.substArgsList r2 with
          | none =>
            rw [hr] at hrec
            exact absurd hrec (by simp)
          | some r => rfl
      · by_cases h2 : ch = '%' ∧ ∃ c r2, rest = c :: r2
        · obtain ⟨rfl, c, r2, rfl⟩ := h2
          have hpc : (insn.arg_subst false c).isSome = true :=
            hp (false, c) (by rw [formatPlaceholders_plain]; exact List.mem_cons_self _ _)
          have hrec : (insn.substArgsList r2).isSome = true := by
            apply ih r2 ?_ ?_
            · simp only [List.length_cons] at hl
              omega
            · intro p hp2
              apply hp p
              rw [formatPlaceholders_plain]
              exact List.mem_cons_of_mem _ hp2
          rw [show insn.substArgsList ('%' :: c :: r2)
              = (match insn.arg_subst false c, insn.substArgsList r2 with
                | some s2, some r => some (s2.toList ++ r)
                | _, _ => none) from rfl]
          cases hs : insn.arg_subst false c with
          | none =>
            rw [hs] at hpc
            exact absurd hpc (by simp)
          | some s =>
            cases hr : insn.substArgsList r2 with
            | none =>
              rw [hr] at hrec
              exact absurd hrec (by simp)
            | some r => rfl
        · have hrec : (insn.substArgsList rest).isSome = true := by
            apply ih rest (by omega)
            intro p hp2
            apply hp p
            rw [formatPlaceholders_cons_other ch rest h1 h2]
            exact hp2
          rw [substArgsList_cons_other insn ch rest h1 h2]
          cases hr : insn.substArgsList rest with
          | none =>
            rw [hr] at hrec
            exact absurd hrec (by simp)
          | some r => rfl

theorem lookup_map_extract (l : List (Char × R2OperandTemplate)) (w : Nat) (c : Char) :
    (l.map (fun p => (p.1, p.2.extract w))).lookup c
      = (l.lookup c).map (fun ot => ot.extract w) := by
  induction l with
  | nil => rfl
  | cons p restl ih =>
    rw [List.map_cons]
    by_cases h : c = p.1
    · have hbeq : (c == p.1) = true := by simp [h]
      simp [List.lookup, hbeq]
    · have hbeq : (c == p.1) = false := by simp [h]
      simp [List.lookup, hbeq, ih]

theorem extract_nonneg_of_unsigned (ot : R2OperandTemplate) (h : ot.signed = false)
    (w : Nat) : 0 ≤ ot.extract w := by
  unfold R2OperandTemplate.extract
  rw [h]
  simp

theorem parse_args_eq (t : R2InsnTemplate) (w : Nat) :
    (t.parse w).args = some (t.opr_templates.map (fun p => (p.1, p.2.extract w))) := rfl

theorem toStr_parse (t : R2InsnTemplate) (w : Nat) :
    (t.parse w).toStr
      = match (t.parse w).substArgsList t.args_format.toList with
        | some args => some (padTo12 t.mnemonic ++ " " ++ String.mk args)
        | none => none := rfl

theorem checkTemplate_sound (t : R2InsnTemplate) (hc : checkTemplate t = true) (w : Nat) :
    ((t.parse w).toStr).isSome = true := by
  have hsub : ((t.parse w).substArgsList t.args_format.toList).isSome = true := by
    apply substArgsList_isSome (t.parse w) t.args_format.toList.length _ (le_refl _)
    intro p hp
    have hok : placeholderOk t p = true := by
      unfold checkTemplate at hc
      exact List.all_eq_true.mp hc p hp
    unfold placeholderOk at hok
    unfold R2Insn.arg_subst
    by_cases hpc : p.2 = '%'
    · rw [if_pos hpc]
      rfl
    · rw [if_neg hpc]
      rw [Bool.or_eq_true, Bool.and_eq_true] at hok
      rcases hok with hok | ⟨hmem, hok⟩
      · exact absurd (by simpa using hok) hpc
      · have hmem2 : p.2 ∈ VALID_ARGS := of_decide_eq_true hmem
        rw [if_neg (by simpa using hmem2)]
        rw [parse_args_eq]
        have hmap := lookup_map_extract t.opr_templates w p.2
        cases hlk : t.opr_templates.lookup p.2 with
        | none =>
          rw [hlk] at hok
          exact absurd hok (by simp)
        | some ot =>
          rw [hlk] at hmap hok
          have hok2 : (!p.1 || !ot.signed) = true := hok
          simp only [Option.some_bind, hmap, Option.map_some', Option.some_bind]
          by_cases hp1 : p.1 = true
          · rw [if_pos hp1]
            have hsgn : ot.signed = false := by
              rw [hp1] at hok2
              simpa using hok2
            rw [if_pos (extract_nonneg_of_unsigned ot hsgn w)]
            rfl
          · rw [if_neg hp1]
            rfl
  rw [toStr_parse]
  cases hs : (t.parse w).substArgsList t.args_format.toList with
  | none =>
    rw [hs] at hsub
    exact absurd hsub (by simp)
  | some args => rfl

/-- Claim C10: for every template of the static table INSNS and every
instruction word, rendering the parsed instruction succeeds: every register
placeholder of every args_format in INSNS names an unsigned operand of its
template, unsigned extraction is never negative, and so the register
non-negativity assertion never fails on the static table. -/
theorem C10_render_safe (t : R2InsnTemplate) (ht : t ∈ INSNS) (w : Nat) :
    ((t.parse w).toStr).isSome = true := by
  have hall : INSNS.all checkTemplate = true := by decide
  exact checkTemplate_sound t (List.all_eq_true.mp hall t ht) w

theorem C10_render_safe_witness :
    lnopTemplate ∈ INSNS ∧ ((lnopTemplate.parse 0).toStr).isSome = true :=
  ⟨by decide, C10_render_safe lnopTemplate (by decide) 0⟩
